import Mathlib

set_option maxHeartbeats 1600000

/-!
Verification of the advent_code_2024 repository against its specification.

Each namespace below shallowly embeds the functions of one puzzle script:
pure Python functions become Lean functions, the `while` loops become
fuel-indexed recursions, Python `int` becomes `Int` (or `Nat` where the
values are provably nonnegative), list indexing that can raise `IndexError`
returns `Option`, and `dict`s become association lists.
-/

namespace Day22

/-- Embeds `mix_and_prune` from day22.py: `(secret ^ value) % 16777216`.
Secrets are nonnegative in every call site, so they are modelled as `Nat`;
Python `^` is bitwise xor. -/
def mix_and_prune (secret value : ℕ) : ℕ :=
  (secret ^^^ value) % 16777216

/-- Embeds `next_secret` from day22.py: three mix-and-prune rounds with
shifts `<< 6`, `>> 5`, `<< 11`. -/
def next_secret (secret : ℕ) : ℕ :=
  let s1 := mix_and_prune secret (secret <<< 6)
  let s2 := mix_and_prune s1 (s1 >>> 5)
  mix_and_prune s2 (s2 <<< 11)

/-- Embeds `p1_simulate_secrets` from day22.py: for each initial secret,
iterate `next_secret` the given number of times. -/
def p1_simulate_secrets (initial_secrets : List ℕ) (iterations : ℕ) : List ℕ :=
  initial_secrets.map (fun secret => next_secret^[iterations] secret)

end Day22

namespace Day17

/-- The machine state of the day17.py interpreter: registers `a`, `b`, `c`,
the instruction pointer `i` (an arbitrary integer, since `jnz` can set it
to `op - 2` for any operand), and the output list `R`. -/
structure Machine where
  a : ℤ
  b : ℤ
  c : ℤ
  ip : ℤ
  out : List ℤ
  deriving DecidableEq, Repr

/-- Python list indexing `prog[i]` for a nonnegative index; `none` models
the `IndexError` raised when the index is at or past the end.  (Negative
indices never occur at the call sites inside the interpreter loop, whose
guard guarantees `0 <= i`, so the wrap-around semantics of negative Python
indices is not needed.) -/
def listGetZ (prog : List ℤ) (i : ℤ) : Option ℤ :=
  if 0 ≤ i then prog.get? i.toNat else none

/-- Two's-complement xor on Python integers, total on `Int`. -/
def intXor (x y : ℤ) : ℤ :=
  if 0 ≤ x then
    if 0 ≤ y then ((x.toNat ^^^ y.toNat : ℕ) : ℤ)
    else -(((x.toNat ^^^ (-y - 1).toNat : ℕ) : ℤ)) - 1
  else
    if 0 ≤ y then -(((((-x - 1).toNat ^^^ y.toNat : ℕ)) : ℤ)) - 1
    else (((-x - 1).toNat ^^^ (-y - 1).toNat : ℕ) : ℤ)

/-- Python `x >> k`: arithmetic right shift, i.e. floor division by `2^k`;
`none` models the `ValueError` raised on a negative shift count. -/
def pyShiftR (x k : ℤ) : Option ℤ :=
  if 0 ≤ k then some (Int.fdiv x (2 ^ k.toNat)) else none

/-- The combo-operand table `C = {0:0, 1:1, 2:2, 3:3, 4:a, 5:b, 6:c}` of
`execute_instruction`; `none` models the `KeyError` on any other operand. -/
def combo (m : Machine) (op : ℤ) : Option ℤ :=
  if op = 0 then some 0
  else if op = 1 then some 1
  else if op = 2 then some 2
  else if op = 3 then some 3
  else if op = 4 then some m.a
  else if op = 5 then some m.b
  else if op = 6 then some m.c
  else none

/-- Embeds `execute_instruction` from day17.py.  The operand `prog[i+1]` is
read first (as in the source, before the `match`), then the opcode
`prog[i]` is dispatched.  `x & 7` on a Python integer equals `x % 8`
(with nonnegative result), embedded via `Int.emod`.  An opcode outside
`0..7` matches no `case` and falls through, leaving the registers
unchanged. -/
def execute_instruction (prog : List ℤ) (m : Machine) : Option Machine := do
  let op ← listGetZ prog (m.ip + 1)
  let ins ← listGetZ prog m.ip
  if ins = 0 then do
    let v ← combo m op
    let s ← pyShiftR m.a v
    pure { m with a := s, ip := m.ip + 2 }
  else if ins = 1 then
    pure { m with b := intXor m.b op, ip := m.ip + 2 }
  else if ins = 2 then do
    let v ← combo m op
    pure { m with b := v.emod 8, ip := m.ip + 2 }
  else if ins = 3 then
    pure { m with ip := (if m.a ≠ 0 then op - 2 else m.ip) + 2 }
  else if ins = 4 then
    pure { m with b := intXor m.b m.c, ip := m.ip + 2 }
  else if ins = 5 then do
    let v ← combo m op
    pure { m with out := m.out ++ [v.emod 8], ip := m.ip + 2 }
  else if ins = 6 then do
    let v ← combo m op
    let s ← pyShiftR m.a v
    pure { m with b := s, ip := m.ip + 2 }
  else if ins = 7 then do
    let v ← combo m op
    let s ← pyShiftR m.a v
    pure { m with c := s, ip := m.ip + 2 }
  else
    pure { m with ip := m.ip + 2 }

/-- The guard `i in range(len(prog))` of the `eval_program` while loop. -/
def ipInRange (prog : List ℤ) (i : ℤ) : Prop :=
  0 ≤ i ∧ i < prog.length

instance (prog : List ℤ) (i : ℤ) : Decidable (ipInRange prog i) := by
  unfold ipInRange; infer_instance

/-- The `while i in range(len(prog))` loop of `eval_program`, run for at
most `n` iterations: stops as soon as the instruction pointer leaves the
program; `none` models a raised exception inside `execute_instruction`. -/
def evalSteps (prog : List ℤ) : ℕ → Machine → Option Machine
  | 0, m => some m
  | n + 1, m =>
    if ipInRange prog m.ip then (execute_instruction prog m).bind (evalSteps prog n)
    else some m

/-- The initial machine of `eval_program(a, b, c, prog)`: `i = 0`, `R = []`. -/
def initMachine (a b c : ℤ) : Machine := ⟨a, b, c, 0, []⟩

/-- `eval_program(a, b, c, prog)` terminates in the sense of the source
loop: after finitely many iterations the instruction pointer leaves
`range(len(prog))` (and no instruction raised on the way). -/
def Terminates (a b c : ℤ) (prog : List ℤ) : Prop :=
  ∃ n m', evalSteps prog n (initMachine a b c) = some m' ∧ ¬ ipInRange prog m'.ip

/-- Fuel-indexed embedding of `eval_program`: `some R` once the loop has
exited normally within the fuel bound, `none` otherwise. -/
def eval_program (fuel : ℕ) (a b c : ℤ) (prog : List ℤ) : Option (List ℤ) :=
  (evalSteps prog fuel (initMachine a b c)).bind fun m =>
    if ipInRange prog m.ip then none else some m.out

end Day17

namespace Day22

/-- Claim C10: `next_secret` always lands in `[0, 16777216)` because its
last mix-and-prune step reduces modulo `2^24`; hence after at least one
iteration every secret produced by `p1_simulate_secrets` lies in that
range, and the property is preserved by every further iteration. -/
theorem next_secret_range :
    (∀ secret : ℕ, next_secret secret < 16777216) ∧
    (∀ (initial_secrets : List ℕ) (iterations : ℕ), 1 ≤ iterations →
      ∀ x ∈ p1_simulate_secrets initial_secrets iterations, x < 16777216) := by
  have hstep : ∀ secret : ℕ, next_secret secret < 16777216 := by
    intro s
    simp only [next_secret, mix_and_prune]
    exact Nat.mod_lt _ (by norm_num)
  refine ⟨hstep, ?_⟩
  rintro l iters h x hx
  simp only [p1_simulate_secrets, List.mem_map] at hx
  obtain ⟨s, -, rfl⟩ := hx
  obtain ⟨k, rfl⟩ : ∃ k, iters = k + 1 := ⟨iters - 1, by omega⟩
  rw [Function.iterate_succ_apply']
  exact hstep _

/-- Witness for C10 at a concrete input. -/
theorem next_secret_range_witness :
    1 ≤ 1 ∧ ∀ x ∈ p1_simulate_secrets [123] 1, x < 16777216 :=
  ⟨le_refl 1, next_secret_range.2 [123] 1 (le_refl 1)⟩

end Day22

namespace Day17

/-- On the two-word program `[3, 0]` with `a = 1`, each iteration jumps
back to instruction pointer `0` without changing any register, so the
machine state is a fixed point of the loop body. -/
theorem evalSteps_31_fixed :
    ∀ n : ℕ, evalSteps [3, 0] n (initMachine 1 0 0) = some (initMachine 1 0 0) := by
  intro n
  induction n with
  | zero => rfl
  | succ k ih =>
    have hstep : execute_instruction [3, 0] (initMachine 1 0 0) =
        some (initMachine 1 0 0) := by decide
    have hin : ipInRange [3, 0] (initMachine 1 0 0).ip := by decide
    rw [evalSteps, if_pos hin, hstep, Option.some_bind]
    exact ih

end Day17

namespace Day17

/-- Claim C5 (counterexample): the interpreter does not terminate on every
program.  With program `[3, 0]` and registers `a = 1, b = 0, c = 0` the
`jnz` instruction jumps back to position `0` forever, so the loop never
reaches an instruction pointer outside the program. -/
theorem eval_program_not_terminating : ¬ Terminates 1 0 0 [3, 0] := by
  rintro ⟨n, m', h, hout⟩
  rw [evalSteps_31_fixed n] at h
  obtain rfl : initMachine 1 0 0 = m' := by
    exact Option.some_injective _ h
  exact hout (by decide)

/-- The register invariant used for the amended termination claim:
`a = 0` (so `jnz` never jumps), `b` and `c` nonnegative (so shift counts
are never negative), and the instruction pointer is even and nonnegative
(so the operand read `prog[i+1]` stays inside an even-length program). -/
def AmendInv (m : Machine) : Prop :=
  m.a = 0 ∧ 0 ≤ m.b ∧ 0 ≤ m.c ∧ 0 ≤ m.ip ∧ 2 ∣ m.ip

theorem listGetZ_some {prog : List ℤ} {i : ℤ} (h0 : 0 ≤ i)
    (hlt : i < prog.length) : ∃ v, listGetZ prog i = some v ∧ v ∈ prog := by
  unfold listGetZ
  rw [if_pos h0]
  have hn : i.toNat < prog.length := by omega
  exact ⟨prog.get ⟨i.toNat, hn⟩, List.get?_eq_get hn, prog.get_mem _ _⟩

theorem combo_some {m : Machine} {op : ℤ} (ha : m.a = 0) (hb : 0 ≤ m.b)
    (hc : 0 ≤ m.c) (h0 : 0 ≤ op) (h6 : op ≤ 6) :
    ∃ v, combo m op = some v ∧ 0 ≤ v := by
  unfold combo
  interval_cases op <;> simp <;> omega

theorem intXor_nonneg {x y : ℤ} (hx : 0 ≤ x) (hy : 0 ≤ y) : 0 ≤ intXor x y := by
  unfold intXor
  rw [if_pos hx, if_pos hy]
  exact Int.natCast_nonneg _

theorem pyShiftR_zero {k : ℤ} (hk : 0 ≤ k) : pyShiftR 0 k = some 0 := by
  unfold pyShiftR
  rw [if_pos hk]
  simp [Int.fdiv]

/-- One loop iteration under the invariant: the instruction succeeds,
preserves the invariant, and advances the instruction pointer by `2`. -/
theorem execute_instruction_step {prog : List ℤ} {m : Machine}
    (hvals : ∀ v ∈ prog, 0 ≤ v ∧ v ≤ 6) (hlen : prog.length % 2 = 0)
    (hinv : AmendInv m) (hin : ipInRange prog m.ip) :
    ∃ m₂, execute_instruction prog m = some m₂ ∧ AmendInv m₂ ∧ m₂.ip = m.ip + 2 := by
  obtain ⟨ha, hb, hc, hip0, hip2⟩ := hinv
  obtain ⟨hin0, hinlt⟩ := hin
  have hop1 : m.ip + 1 < (prog.length : ℤ) := by omega
  obtain ⟨op, hop, hopmem⟩ := listGetZ_some (by omega) hop1
  obtain ⟨ins, hins, hinsmem⟩ := listGetZ_some hip0 hinlt
  obtain ⟨hop0, hop6⟩ := hvals op hopmem
  obtain ⟨hins0, hins6⟩ := hvals ins hinsmem
  obtain ⟨v, hv, hv0⟩ := combo_some ha hb hc hop0 hop6
  unfold execute_instruction
  rw [hop, hins]
  interval_cases ins
  · exact ⟨{ m with a := 0, ip := m.ip + 2 }, by simp [hv, ha, pyShiftR_zero hv0],
      ⟨rfl, hb, hc, by show 0 ≤ m.ip + 2; omega, by show (2:ℤ) ∣ m.ip + 2; omega⟩, rfl⟩
  · exact ⟨{ m with b := intXor m.b op, ip := m.ip + 2 }, by simp,
      ⟨ha, intXor_nonneg hb hop0, hc, by show 0 ≤ m.ip + 2; omega, by show (2:ℤ) ∣ m.ip + 2; omega⟩, rfl⟩
  · exact ⟨{ m with b := v.emod 8, ip := m.ip + 2 }, by simp [hv],
      ⟨ha, Int.emod_nonneg v (by norm_num), hc, by show 0 ≤ m.ip + 2; omega, by show (2:ℤ) ∣ m.ip + 2; omega⟩, rfl⟩
  · exact ⟨{ m with ip := m.ip + 2 }, by simp [ha],
      ⟨ha, hb, hc, by show 0 ≤ m.ip + 2; omega, by show (2:ℤ) ∣ m.ip + 2; omega⟩, rfl⟩
  · exact ⟨{ m with b := intXor m.b m.c, ip := m.ip + 2 }, by simp,
      ⟨ha, intXor_nonneg hb hc, hc, by show 0 ≤ m.ip + 2; omega, by show (2:ℤ) ∣ m.ip + 2; omega⟩, rfl⟩
  · exact ⟨{ m with out := m.out ++ [v.emod 8], ip := m.ip + 2 }, by simp [hv],
      ⟨ha, hb, hc, by show 0 ≤ m.ip + 2; omega, by show (2:ℤ) ∣ m.ip + 2; omega⟩, rfl⟩
  · exact ⟨{ m with b := 0, ip := m.ip + 2 }, by simp [hv, ha, pyShiftR_zero hv0],
      ⟨ha, le_refl 0, hc, by show 0 ≤ m.ip + 2; omega, by show (2:ℤ) ∣ m.ip + 2; omega⟩, rfl⟩

/-- Running the loop under the invariant: with enough iterations the
instruction pointer passes the end of the program. -/
theorem evalSteps_terminates {prog : List ℤ}
    (hvals : ∀ v ∈ prog, 0 ≤ v ∧ v ≤ 6) (hlen : prog.length % 2 = 0) :
    ∀ (n : ℕ) (m : Machine), AmendInv m → (prog.length : ℤ) ≤ m.ip + 2 * n →
      ∃ m', evalSteps prog n m = some m' ∧ ¬ ipInRange prog m'.ip := by
  intro n
  induction n with
  | zero =>
    intro m hinv hbound
    refine ⟨m, rfl, ?_⟩
    intro ⟨h1, h2⟩
    omega
  | succ k ih =>
    intro m hinv hbound
    by_cases hin : ipInRange prog m.ip
    · obtain ⟨m₂, hstep, hinv₂, hip₂⟩ := execute_instruction_step hvals hlen hinv hin
      rw [evalSteps, if_pos hin, hstep, Option.some_bind]
      exact ih m₂ hinv₂ (by omega)
    · exact ⟨m, by rw [evalSteps, if_neg hin], hin⟩

/-- Claim C5 (amended): the interpreter terminates whenever register `a`
starts at `0` (so `jnz` never jumps backwards), registers `b` and `c` are
nonnegative, and the program is an even-length list of values in
`{0, ..., 6}` (so no operand lookup, operand read, or shift can raise). -/
theorem eval_program_terminates_amended (b c : ℤ) (prog : List ℤ)
    (hb : 0 ≤ b) (hc : 0 ≤ c) (hlen : prog.length % 2 = 0)
    (hvals : ∀ v ∈ prog, 0 ≤ v ∧ v ≤ 6) : Terminates 0 b c prog := by
  obtain ⟨m', h1, h2⟩ := evalSteps_terminates hvals hlen prog.length
    (initMachine 0 b c) ⟨rfl, hb, hc, le_refl 0, ⟨0, by simp [initMachine]⟩⟩
    (by simp only [initMachine]; omega)
  exact ⟨prog.length, m', h1, h2⟩

/-- Witness for the amended C5 claim at a concrete input. -/
theorem eval_program_terminates_amended_witness :
    (0:ℤ) ≤ 0 ∧ ([5, 0] : List ℤ).length % 2 = 0 ∧
      (∀ v ∈ ([5, 0] : List ℤ), 0 ≤ v ∧ v ≤ 6) ∧ Terminates 0 0 0 [5, 0] :=
  ⟨le_refl 0, by decide, by decide,
    eval_program_terminates_amended 0 0 [5, 0] (le_refl 0) (le_refl 0) (by decide) (by decide)⟩

end Day17

namespace Day19

/-- Towel patterns and designs: Python strings modelled as character lists. -/
abbrev Pat := List Char

/-- Python slicing `design[i:j]`. -/
def slice (design : Pat) (i j : ℕ) : Pat := (design.take j).drop i

/-- The inner `for j in range(i + 1, n + 1)` loop of `count_ways`:
`dp[j] += dp[i]` whenever `design[i:j]` is in the towel set. -/
def innerLoop (design : Pat) (towel_set : List Pat) (i : ℕ) (js : List ℕ)
    (dp : List ℕ) : List ℕ :=
  js.foldl (fun dp2 j =>
    if slice design i j ∈ towel_set then dp2.set j (dp2.getD j 0 + dp2.getD i 0)
    else dp2) dp

/-- The body of the outer `for i in range(n)` loop of `count_ways`: skip the
row when `dp[i] == 0`, otherwise run the inner loop over `range(i+1, n+1)`. -/
def outerBody (design : Pat) (towel_set : List Pat) (n : ℕ) (dp : List ℕ) (i : ℕ) : List ℕ :=
  if dp.getD i 0 = 0 then dp
  else innerLoop design towel_set i (List.range' (i + 1) (n - i)) dp

/-- Embeds `count_ways` from day19.py: `dp = [0]*(n+1); dp[0] = 1`, then the
double loop adding `dp[i]` into `dp[j]` for every towel slice `design[i:j]`,
returning `dp[n]`.  Membership in the Python `set` is list membership. -/
def count_ways (design : Pat) (towel_set : List Pat) : ℕ :=
  let n := design.length
  let dp0 : List ℕ := (List.replicate (n + 1) 0).set 0 1
  ((List.range n).foldl (outerBody design towel_set n) dp0).getD n 0

/-- The specification-side set for C7: all finite sequences of patterns
drawn (with repetition) from `towel_set` whose concatenation equals `s`. -/
def SeqSet (towel_set : List Pat) (s : Pat) : Set (List Pat) :=
  { l | (∀ p ∈ l, p ∈ towel_set) ∧ l.flatten = s }

/-- Claim C7 (counterexample): as stated the claim fails when the empty
pattern is a towel: every design then has infinitely many decompositions
(insert `""` anywhere), so no count can equal them; `count_ways` still
returns a finite number (here `1` for the empty design). -/
theorem count_ways_claim_false :
    ¬ ((SeqSet [[]] []).Finite ∧ (SeqSet [[]] []).ncard = count_ways [] [[]]) := by
  rintro ⟨hfin, -⟩
  have hinj : Function.Injective fun k : ℕ => List.replicate k ([] : Pat) := by
    intro a b hab
    simpa using congrArg List.length hab
  have hmem : ∀ k : ℕ, List.replicate k ([] : Pat) ∈ SeqSet [[]] [] := by
    intro k
    refine ⟨?_, ?_⟩
    · intro p hp
      simp [List.eq_of_mem_replicate hp]
    · rw [List.flatten_eq_nil_iff]
      intro l hl
      exact List.eq_of_mem_replicate hl
  exact Set.infinite_of_injective_forall_mem hinj hmem hfin

/-- The number of decompositions of `s` into towels, classified by the last
pattern used.  This is the mathematical recurrence that both
`Set.ncard (SeqSet ts s)` (for nonempty patterns) and the dp of
`count_ways` are proved to satisfy. -/
def decompCount (ts : List Pat) (s : Pat) : ℕ :=
  if s.length = 0 then 1
  else (Finset.range s.length).attach.sum fun i =>
    if s.drop i.1 ∈ ts then decompCount ts (s.take i.1) else 0
termination_by s.length
decreasing_by
  have := Finset.mem_range.mp i.2
  simp only [List.length_take]
  omega

theorem decompCount_nil (ts : List Pat) : decompCount ts [] = 1 := by
  rw [decompCount]
  simp

theorem decompCount_pos (ts : List Pat) (s : Pat) (hs : s ≠ []) :
    decompCount ts s = ∑ i in Finset.range s.length,
      if s.drop i ∈ ts then decompCount ts (s.take i) else 0 := by
  rw [decompCount, if_neg (by simpa using hs),
    Finset.sum_attach (Finset.range s.length)
      (fun i => if s.drop i ∈ ts then decompCount ts (s.take i) else 0)]

/-- Cardinality of a finite disjoint union of finite sets, indexed by a
`Finset`. -/
theorem ncard_biUnion_finset {α : Type} (I : Finset ℕ) (f : ℕ → Set α)
    (hfin : ∀ i ∈ I, (f i).Finite)
    (hdisj : ∀ i ∈ I, ∀ j ∈ I, i ≠ j → Disjoint (f i) (f j)) :
    (⋃ i ∈ I, f i).Finite ∧ (⋃ i ∈ I, f i).ncard = ∑ i in I, (f i).ncard := by
  classical
  induction I using Finset.induction_on with
  | empty => simp
  | insert ha ih =>
    rename_i a s
    rw [Finset.set_biUnion_insert]
    have hfa : (f a).Finite := hfin a (Finset.mem_insert_self a s)
    have hrest := ih (fun i hi => hfin i (Finset.mem_insert_of_mem hi))
      (fun i hi j hj hij =>
        hdisj i (Finset.mem_insert_of_mem hi) j (Finset.mem_insert_of_mem hj) hij)
    have hdau : Disjoint (f a) (⋃ i ∈ s, f i) := by
      simp only [Set.disjoint_iUnion_right]
      intro i hi
      exact hdisj a (Finset.mem_insert_self a s) i (Finset.mem_insert_of_mem hi)
        (by rintro rfl; exact ha hi)
    refine ⟨hfa.union hrest.1, ?_⟩
    rw [Set.ncard_union_eq hdau hfa hrest.1, hrest.2, Finset.sum_insert ha]

/-- Decomposition of `SeqSet` by the last pattern of a sequence. -/
theorem seqSet_decomp (ts : List Pat) (hne : ∀ p ∈ ts, p ≠ []) (s : Pat) (hs : s ≠ []) :
    SeqSet ts s =
      ⋃ i ∈ ((Finset.range s.length).filter fun i => s.drop i ∈ ts),
        (fun l => l ++ [s.drop i]) '' SeqSet ts (s.take i) := by
  ext l
  simp only [Set.mem_iUnion, Finset.mem_filter, Finset.mem_range, Set.mem_image, exists_prop]
  constructor
  · rintro ⟨hall, hjoin⟩
    have hl : l ≠ [] := by
      rintro rfl
      exact hs hjoin.symm
    have hxl : l.getLast hl ∈ l := List.getLast_mem hl
    have hx : l.getLast hl ∈ ts := hall _ hxl
    have hxne : l.getLast hl ≠ [] := hne _ hx
    have hsplit : l.dropLast ++ [l.getLast hl] = l := List.dropLast_append_getLast hl
    have hj2 : l.dropLast.flatten ++ l.getLast hl = s := by
      have h := congrArg List.flatten hsplit
      rw [List.flatten_append] at h
      simpa using h.trans hjoin
    have hdropeq : s.drop l.dropLast.flatten.length = l.getLast hl := by
      rw [← hj2]
      exact List.drop_left _ _
    have htakeeq : s.take l.dropLast.flatten.length = l.dropLast.flatten := by
      rw [← hj2]
      exact List.take_left _ _
    refine ⟨l.dropLast.flatten.length, ⟨⟨?_, ?_⟩, l.dropLast, ⟨?_, ?_⟩, ?_⟩⟩
    · have hlen := congrArg List.length hj2
      rw [List.length_append] at hlen
      have hpos : 0 < (l.getLast hl).length := List.length_pos.mpr hxne
      omega
    · rw [hdropeq]; exact hx
    · intro p hp
      exact hall p ((List.dropLast_prefix l).subset hp)
    · rw [htakeeq]
    · rw [hdropeq]; exact hsplit
  · rintro ⟨i, ⟨⟨hi, hits⟩, l', ⟨hall', hjoin'⟩, rfl⟩⟩
    refine ⟨?_, ?_⟩
    · intro p hp
      rcases List.mem_append.mp hp with h | h
      · exact hall' p h
      · rw [List.mem_singleton.mp h]; exact hits
    · rw [List.flatten_append]
      simp only [List.flatten_cons, List.flatten_nil, List.append_nil]
      rw [hjoin']
      exact List.take_append_drop i s

/-- For nonempty towel patterns, the decomposition set is finite and its
cardinality satisfies the last-pattern recurrence `decompCount`. -/
theorem seqSet_finite_ncard (ts : List Pat) (hne : ∀ p ∈ ts, p ≠ []) (s : Pat) :
    (SeqSet ts s).Finite ∧ (SeqSet ts s).ncard = decompCount ts s := by
  have H : ∀ n (s : Pat), s.length = n →
      (SeqSet ts s).Finite ∧ (SeqSet ts s).ncard = decompCount ts s := by
    intro n
    induction n using Nat.strong_induction_on with
    | _ n ih =>
      intro s hsn
      by_cases hs : s = []
      · subst hs
        have hset : SeqSet ts [] = {[]} := by
          ext l
          simp only [SeqSet, Set.mem_setOf_eq, Set.mem_singleton_iff]
          constructor
          · rintro ⟨hall, hjoin⟩
            rw [List.flatten_eq_nil_iff] at hjoin
            cases l with
            | nil => rfl
            | cons p t =>
              exact absurd (hjoin p (by simp)) (hne p (hall p (by simp)))
          · rintro rfl
            exact ⟨by simp, rfl⟩
        rw [hset, decompCount_nil]
        exact ⟨Set.finite_singleton _, Set.ncard_singleton _⟩
      · have hih : ∀ i, i < s.length →
            (SeqSet ts (s.take i)).Finite ∧
              (SeqSet ts (s.take i)).ncard = decompCount ts (s.take i) := by
          intro i hi
          exact ih (s.take i).length (by simp only [List.length_take]; omega) (s.take i) rfl
        have key := ncard_biUnion_finset
          ((Finset.range s.length).filter fun i => s.drop i ∈ ts)
          (fun i => (fun l => l ++ [s.drop i]) '' SeqSet ts (s.take i))
          (fun i hi => ((hih i (Finset.mem_range.mp (Finset.mem_filter.mp hi).1)).1).image _)
          ?_
        · rw [seqSet_decomp ts hne s hs]
          refine ⟨key.1, ?_⟩
          rw [key.2]
          have h1 : ∀ i ∈ (Finset.range s.length).filter (fun i => s.drop i ∈ ts),
              ((fun l => l ++ [s.drop i]) '' SeqSet ts (s.take i)).ncard =
                decompCount ts (s.take i) := by
            intro i hi
            rw [Set.ncard_image_of_injective _ (List.append_left_injective _)]
            exact (hih i (Finset.mem_range.mp (Finset.mem_filter.mp hi).1)).2
          rw [Finset.sum_congr rfl h1, Finset.sum_filter]
          exact (decompCount_pos ts s hs).symm
        · intro i hi j hj hij
          rw [Set.disjoint_left]
          rintro l ⟨a, -, rfl⟩ ⟨b, -, hba⟩
          have h := congrArg List.getLast? hba
          rw [List.getLast?_concat, List.getLast?_concat] at h
          have h2 := congrArg List.length (Option.some_injective _ h)
          rw [List.length_drop, List.length_drop] at h2
          have hi' := Finset.mem_range.mp (Finset.mem_filter.mp hi).1
          have hj' := Finset.mem_range.mp (Finset.mem_filter.mp hj).1
          exact hij (by omega)
  exact H s.length s rfl

end Day19

namespace Day19

theorem getD_set_self {l : List ℕ} {i : ℕ} {a : ℕ} (h : i < l.length) :
    (l.set i a).getD i 0 = a := by
  rw [List.getD_eq_getElem?_getD, List.getElem?_set_self h]
  rfl

theorem getD_set_ne {l : List ℕ} {i j : ℕ} {a : ℕ} (h : i ≠ j) :
    (l.set i a).getD j 0 = l.getD j 0 := by
  rw [List.getD_eq_getElem?_getD, List.getElem?_set_ne h, ← List.getD_eq_getElem?_getD]

theorem innerLoop_cons (design : Pat) (ts : List Pat) (i j : ℕ) (rest : List ℕ)
    (dp : List ℕ) :
    innerLoop design ts i (j :: rest) dp =
      innerLoop design ts i rest
        (if slice design i j ∈ ts then dp.set j (dp.getD j 0 + dp.getD i 0) else dp) := rfl

theorem innerLoop_length (design : Pat) (ts : List Pat) (i : ℕ) :
    ∀ (js : List ℕ) (dp : List ℕ), (innerLoop design ts i js dp).length = dp.length := by
  intro js
  induction js with
  | nil => intro dp; rfl
  | cons j rest ih =>
    intro dp
    rw [innerLoop_cons, ih]
    split_ifs <;> simp

/-- Effect of the inner loop on each dp entry: every index in `js` whose
slice is a towel gains `dp[i]`, everything else is unchanged. -/
theorem innerLoop_getD (design : Pat) (ts : List Pat) (i : ℕ) :
    ∀ (js : List ℕ) (dp : List ℕ), (∀ j ∈ js, i < j) → (∀ j ∈ js, j < dp.length) →
      js.Nodup → ∀ x,
      (innerLoop design ts i js dp).getD x 0 =
        if x ∈ js ∧ slice design i x ∈ ts then dp.getD x 0 + dp.getD i 0
        else dp.getD x 0 := by
  intro js
  induction js with
  | nil =>
    intro dp _ _ _ x
    simp [innerLoop]
  | cons j rest ih =>
    intro dp hji hlen hnd x
    have hij : i ≠ j := Nat.ne_of_lt (hji j (by simp))
    have hjlen : j < dp.length := hlen j (by simp)
    rw [innerLoop_cons]
    set dp1 := (if slice design i j ∈ ts then dp.set j (dp.getD j 0 + dp.getD i 0) else dp)
      with hdp1
    have hlen1 : dp1.length = dp.length := by
      rw [hdp1]; split_ifs <;> simp
    have hgi : dp1.getD i 0 = dp.getD i 0 := by
      rw [hdp1]; split_ifs with h
      · exact getD_set_ne (Ne.symm hij)
      · rfl
    have hrec := ih dp1 (fun a ha => hji a (by simp [ha]))
      (fun a ha => by rw [hlen1]; exact hlen a (by simp [ha]))
      (List.Nodup.of_cons hnd) x
    rw [hrec]
    by_cases hxr : x ∈ rest
    · have hxj : x ≠ j := by
        rintro rfl
        exact (List.nodup_cons.mp hnd).1 hxr
      have hgx : dp1.getD x 0 = dp.getD x 0 := by
        rw [hdp1]; split_ifs with h
        · exact getD_set_ne (Ne.symm hxj)
        · rfl
      by_cases hsx : slice design i x ∈ ts
      · rw [if_pos ⟨hxr, hsx⟩, if_pos ⟨List.mem_cons_of_mem j hxr, hsx⟩, hgx, hgi]
      · rw [if_neg (fun hcc => hsx hcc.2), if_neg (fun hcc => hsx hcc.2), hgx]
    · by_cases hxj : x = j
      · subst hxj
        rw [if_neg (fun hcc => hxr hcc.1), hdp1]
        by_cases hsx : slice design i x ∈ ts
        · rw [if_pos hsx, getD_set_self hjlen, if_pos ⟨List.mem_cons_self x rest, hsx⟩]
        · rw [if_neg hsx, if_neg (fun hcc => hsx hcc.2)]
      · have hgx : dp1.getD x 0 = dp.getD x 0 := by
          rw [hdp1]; split_ifs with h
          · exact getD_set_ne (fun he => hxj he.symm)
          · rfl
        have hxmem : ¬ (x ∈ (j :: rest) ∧ slice design i x ∈ ts) := by
          rintro ⟨hm, -⟩
          rcases List.mem_cons.mp hm with h | h
          · exact hxj h
          · exact hxr h
        rw [if_neg (fun hcc => hxr hcc.1), if_neg hxmem, hgx]

theorem decompCount_take (design : Pat) (ts : List Pat) (j : ℕ) (hj1 : 1 ≤ j)
    (hjn : j ≤ design.length) :
    decompCount ts (design.take j) =
      ∑ i in Finset.range j,
        if slice design i j ∈ ts then decompCount ts (design.take i) else 0 := by
  have hlen : (design.take j).length = j := by
    simp only [List.length_take]
    omega
  have hne : design.take j ≠ [] := by
    intro h
    rw [h] at hlen
    simp at hlen
    omega
  rw [decompCount_pos ts _ hne, hlen]
  apply Finset.sum_congr rfl
  intro i hi
  have hij : i < j := Finset.mem_range.mp hi
  have h2 : (design.take j).take i = design.take i := by
    rw [List.take_take]
    congr 1
    omega
  rw [h2]
  rfl

/-- The value the dp holds at index `j` after the outer loop has processed
rows `0, ..., k-1`. -/
def dpSpec (design : Pat) (ts : List Pat) (j k : ℕ) : ℕ :=
  (if j = 0 then 1 else 0) +
    ∑ i in Finset.range (min j k),
      if slice design i j ∈ ts then decompCount ts (design.take i) else 0

theorem dpSpec_self (design : Pat) (ts : List Pat) (k : ℕ) (hk : k ≤ design.length) :
    dpSpec design ts k k = decompCount ts (design.take k) := by
  rcases Nat.eq_zero_or_pos k with rfl | hpos
  · simp [dpSpec, decompCount_nil]
  · rw [dpSpec, if_neg (by omega), decompCount_take design ts k hpos hk, min_self,
      Nat.zero_add]

theorem dpSpec_succ (design : Pat) (ts : List Pat) (j k : ℕ) :
    dpSpec design ts j (k + 1) =
      dpSpec design ts j k +
        (if k < j ∧ slice design k j ∈ ts then decompCount ts (design.take k) else 0) := by
  by_cases hkj : k < j
  · have h1 : min j (k + 1) = k + 1 := by omega
    have h2 : min j k = k := by omega
    rw [dpSpec, dpSpec, h1, h2, Finset.sum_range_succ]
    simp only [hkj, true_and]
    exact (Nat.add_assoc _ _ _).symm
  · have h1 : min j (k + 1) = min j k := by omega
    rw [dpSpec, dpSpec, h1]
    simp [hkj]

/-- The outer-loop invariant: after `k` rows the dp has length `n + 1` and
holds `dpSpec` at every index. -/
theorem outer_inv (design : Pat) (ts : List Pat) :
    ∀ k, k ≤ design.length →
      ((List.range k).foldl (outerBody design ts design.length)
          ((List.replicate (design.length + 1) 0).set 0 1)).length = design.length + 1 ∧
      ∀ j, j ≤ design.length →
        ((List.range k).foldl (outerBody design ts design.length)
            ((List.replicate (design.length + 1) 0).set 0 1)).getD j 0 =
          dpSpec design ts j k := by
  intro k
  induction k with
  | zero =>
    intro _
    refine ⟨by simp, ?_⟩
    intro j hj
    simp only [List.range_zero, List.foldl_nil]
    rcases Nat.eq_zero_or_pos j with rfl | hpos
    · rw [getD_set_self (by simp)]
      simp [dpSpec]
    · rw [getD_set_ne (by omega), List.getD_eq_getElem?_getD,
        List.getElem?_getD_replicate_default_eq]
      simp [dpSpec, Nat.pos_iff_ne_zero.mp hpos]
  | succ k ih =>
    intro hk1
    have hk : k ≤ design.length := by omega
    obtain ⟨ihlen, ihval⟩ := ih hk
    rw [List.range_succ, List.foldl_append]
    simp only [List.foldl_cons, List.foldl_nil]
    have hbridge : ((List.range k).foldl (outerBody design ts design.length)
        ((List.replicate (design.length + 1) 0).set 0 1)).getD k 0 =
        decompCount ts (design.take k) := by
      rw [ihval k hk]
      exact dpSpec_self design ts k hk
    rw [outerBody]
    by_cases hzero : ((List.range k).foldl (outerBody design ts design.length)
        ((List.replicate (design.length + 1) 0).set 0 1)).getD k 0 = 0
    · rw [if_pos hzero]
      refine ⟨ihlen, ?_⟩
      intro j hj
      rw [ihval j hj, dpSpec_succ]
      have hterm : (if k < j ∧ slice design k j ∈ ts
          then decompCount ts (design.take k) else 0) = 0 := by
        split_ifs
        · rw [← hbridge]; exact hzero
        · rfl
      omega
    · rw [if_neg hzero]
      have hlen2 := innerLoop_length design ts k
        (List.range' (k + 1) (design.length - k))
        ((List.range k).foldl (outerBody design ts design.length)
          ((List.replicate (design.length + 1) 0).set 0 1))
      refine ⟨by rw [hlen2, ihlen], ?_⟩
      intro j hj
      rw [innerLoop_getD design ts k _ _
        (fun a ha => by have := (List.mem_range'_1.mp ha).1; omega)
        (fun a ha => by
          have := (List.mem_range'_1.mp ha).2
          rw [ihlen]
          omega)
        (by exact List.nodup_range' _ _ 1 (by norm_num)) j]
      have hmem : j ∈ List.range' (k + 1) (design.length - k) ↔ k < j := by
        rw [List.mem_range'_1]
        omega
      rw [dpSpec_succ]
      by_cases hc : k < j ∧ slice design k j ∈ ts
      · rw [if_pos ⟨hmem.mpr hc.1, hc.2⟩, if_pos hc, ihval j hj, hbridge]
      · rw [if_neg (fun hcm => hc ⟨hmem.mp hcm.1, hcm.2⟩), if_neg hc, ihval j hj,
          Nat.add_zero]

theorem count_ways_eq_decompCount (design : Pat) (ts : List Pat) :
    count_ways design ts = decompCount ts design := by
  show ((List.range design.length).foldl (outerBody design ts design.length)
      ((List.replicate (design.length + 1) 0).set 0 1)).getD design.length 0 = _
  rw [(outer_inv design ts design.length (le_refl _)).2 design.length (le_refl _),
    dpSpec_self design ts design.length (le_refl _), List.take_length]

/-- Claim C7 (amended): for every design and every towel set whose patterns
are all nonempty, `count_ways` returns exactly the number of finite
sequences of patterns drawn (with repetition) from the towel set whose
concatenation equals the design; in particular it returns `1` for the
empty design. -/
theorem count_ways_counts_decompositions (design : Pat) (towel_set : List Pat)
    (hne : ∀ p ∈ towel_set, p ≠ []) :
    ((SeqSet towel_set design).Finite ∧
      (SeqSet towel_set design).ncard = count_ways design towel_set) ∧
      count_ways [] towel_set = 1 := by
  obtain ⟨h1, h2⟩ := seqSet_finite_ncard towel_set hne design
  refine ⟨⟨h1, h2.trans (count_ways_eq_decompCount design towel_set).symm⟩, ?_⟩
  rw [count_ways_eq_decompCount [] towel_set, decompCount_nil]

/-- Witness for the amended C7 claim at a concrete input. -/
theorem count_ways_counts_decompositions_witness :
    (∀ p ∈ ([[ 'a' ]] : List Pat), p ≠ []) ∧
      (((SeqSet [[ 'a' ]] [ 'a', 'a' ]).Finite ∧
        (SeqSet [[ 'a' ]] [ 'a', 'a' ]).ncard = count_ways [ 'a', 'a' ] [[ 'a' ]]) ∧
        count_ways [] [[ 'a' ]] = 1) :=
  ⟨by decide, count_ways_counts_decompositions [ 'a', 'a' ] [[ 'a' ]] (by decide)⟩

end Day19

namespace Day16

/-- A search state of `reindeer_maze`: `(row, column, facing)` with facing
`0 = East, 1 = South, 2 = West, 3 = North` as in the `directions` table.
All coordinates that ever enter the queue are nonnegative (the start is a
grid cell and forward moves are bounds-checked), so they are `Nat`. -/
abbrev St := ℕ × ℕ × ℕ

/-- A priority-queue entry `(cost, row, column, facing)` as pushed by
`reindeer_maze`. -/
abbrev Entry := ℕ × St

/-- The `directions` table of day16.py: East, South, West, North. -/
def directions : List (ℤ × ℤ) := [(0, 1), (1, 0), (0, -1), (-1, 0)]

/-- Cell lookup `grid[x][y]`, with `'#'` when the index is out of range.
The default collapses the `IndexError` Python raises when a bounds-checked
read hits a row shorter than row 0 (the check compares against
`len(grid[0])`): `fwdReadE` below models that error path, the two agree on
rectangular grids, and the part-1 claim theorems carry a `RectGrid`
hypothesis. -/
def cellAt (grid : List (List Char)) (x y : ℕ) : Char :=
  (grid.getD x []).getD y '#'

/-- The forward move from a state: `new_x, new_y = x + dx, y + dy`, defined
exactly when the source's bounds check
`0 <= new_x < len(grid) and 0 <= new_y < len(grid[0])` and wall check
`grid[new_x][new_y] != '#'` succeed. -/
def fwdTarget (grid : List (List Char)) (s : St) : Option St :=
  let d := directions.getD s.2.2 (0, 0)
  let nx : ℤ := (s.1 : ℤ) + d.1
  let ny : ℤ := (s.2.1 : ℤ) + d.2
  if 0 ≤ nx ∧ nx < grid.length ∧ 0 ≤ ny ∧ ny < (grid.headD []).length ∧
      cellAt grid nx.toNat ny.toNat ≠ '#' then
    some (nx.toNat, ny.toNat, s.2.2)
  else none

/-- `(facing + rotation) % 4` with Python's nonnegative modulo. -/
def rotFacing (f : ℕ) (r : ℤ) : ℕ := (((f : ℤ) + r) % 4).toNat

/-- Lexicographic comparison of heap entries: Python's `heapq` orders the
pushed 4-tuples `(cost, x, y, facing)` lexicographically. -/
def entryLe (a b : Entry) : Prop :=
  a.1 < b.1 ∨ (a.1 = b.1 ∧ (a.2.1 < b.2.1 ∨ (a.2.1 = b.2.1 ∧
    (a.2.2.1 < b.2.2.1 ∨ (a.2.2.1 = b.2.2.1 ∧ a.2.2.2 ≤ b.2.2.2)))))

instance (a b : Entry) : Decidable (entryLe a b) := by
  unfold entryLe; infer_instance

theorem entryLe_refl (a : Entry) : entryLe a a := by unfold entryLe; omega

theorem entryLe_total (a b : Entry) : entryLe a b ∨ entryLe b a := by
  unfold entryLe; omega

theorem entryLe_trans {a b c : Entry} (h1 : entryLe a b) (h2 : entryLe b c) :
    entryLe a c := by
  unfold entryLe at h1 h2 ⊢; omega

theorem entryLe_cost {a b : Entry} (h : entryLe a b) : a.1 ≤ b.1 := by
  unfold entryLe at h; omega

/-- The least entry of a nonempty queue (what `heapq.heappop` returns). -/
def qmin (h : Entry) (t : List Entry) : Entry :=
  t.foldl (fun m e => if entryLe m e then m else e) h

/-- `heapq.heappop`: the heap is modelled as the multiset of its entries;
popping removes one least entry (entries with equal keys are equal
4-tuples, so the choice among ties is irrelevant). -/
def popMin : List Entry → Option (Entry × List Entry)
  | [] => none
  | h :: t => some (qmin h t, (h :: t).erase (qmin h t))

theorem qmin_mem (h : Entry) (t : List Entry) : qmin h t ∈ h :: t := by
  induction t generalizing h with
  | nil => simp [qmin]
  | cons e t ih =>
    have hfold : qmin h (e :: t) = qmin (if entryLe h e then h else e) t := rfl
    rw [hfold]
    rcases List.mem_cons.mp (ih (if entryLe h e then h else e)) with h1 | h1
    · rw [h1]
      split_ifs <;> simp
    · simp [h1]

theorem qmin_le (h : Entry) (t : List Entry) : ∀ e ∈ h :: t, entryLe (qmin h t) e := by
  induction t generalizing h with
  | nil =>
    intro e he
    have : e = h := by simpa using he
    rw [this]
    exact entryLe_refl h
  | cons a t ih =>
    intro e he
    have hfold : qmin h (a :: t) = qmin (if entryLe h a then h else a) t := rfl
    have hh' := ih (if entryLe h a then h else a) _ (List.mem_cons_self _ _)
    have hmain : entryLe (qmin h (a :: t)) h ∧ entryLe (qmin h (a :: t)) a := by
      rw [hfold]
      by_cases hha : entryLe h a
      · rw [if_pos hha] at hh' ⊢
        exact ⟨hh', entryLe_trans hh' hha⟩
      · have hah : entryLe a h := (entryLe_total h a).resolve_left hha
        rw [if_neg hha] at hh' ⊢
        exact ⟨entryLe_trans hh' hah, hh'⟩
    rcases List.mem_cons.mp he with rfl | he1
    · exact hmain.1
    rcases List.mem_cons.mp he1 with rfl | he2
    · exact hmain.2
    · rw [hfold]
      exact ih _ e (List.mem_cons_of_mem _ he2)

theorem popMin_none {q : List Entry} : popMin q = none ↔ q = [] := by
  cases q <;> simp [popMin]

theorem popMin_spec {q : List Entry} {m : Entry} {q' : List Entry}
    (h : popMin q = some (m, q')) :
    m ∈ q ∧ (∀ e ∈ q, entryLe m e) ∧ q'.length + 1 = q.length ∧
      (∀ e ∈ q, e = m ∨ e ∈ q') ∧ (∀ e ∈ q', e ∈ q) := by
  cases q with
  | nil => simp [popMin] at h
  | cons a t =>
    rw [popMin] at h
    have hinj := Option.some_injective _ h
    obtain ⟨h1, h2⟩ : qmin a t = m ∧ (a :: t).erase (qmin a t) = q' :=
      ⟨congrArg Prod.fst hinj, congrArg Prod.snd hinj⟩
    subst h1
    subst h2
    refine ⟨qmin_mem a t, qmin_le a t, ?_, ?_, ?_⟩
    · rw [List.length_erase_of_mem (qmin_mem a t)]
      have : 0 < (a :: t).length := by simp
      omega
    · intro e he
      by_cases hem : e = qmin a t
      · exact Or.inl hem
      · exact Or.inr ((List.mem_erase_of_ne hem).mpr he)
    · intro e he
      exact List.mem_of_mem_erase he

/-- The three pushes performed when expanding a popped state: the forward
move (cost + 1, if in range and not a wall) and both rotations
(cost + 1000 each). -/
def pushSuccs (grid : List (List Char)) (e : Entry) (q : List Entry) : List Entry :=
  let q1 := match fwdTarget grid e.2 with
    | some t => (e.1 + 1, t) :: q
    | none => q
  (e.1 + 1000, e.2.1, e.2.2.1, rotFacing e.2.2.2 1) ::
    (e.1 + 1000, e.2.1, e.2.2.1, rotFacing e.2.2.2 (-1)) :: q1

/-- The `while priority_queue:` loop of `reindeer_maze`, fuel-indexed:
pop the least entry, return its cost at the end cell, skip settled
`(position, facing)` states, otherwise expand. -/
def reindeerMazeLoop (grid : List (List Char)) (endp : ℕ × ℕ) :
    ℕ → List Entry → List St → Option ℤ
  | 0, _, _ => none
  | fuel + 1, q, visited =>
    match popMin q with
    | none => some (-1)
    | some (e, q') =>
      if (e.2.1, e.2.2.1) = endp then some (e.1 : ℤ)
      else if e.2 ∈ visited then reindeerMazeLoop grid endp fuel q' visited
      else reindeerMazeLoop grid endp fuel (pushSuccs grid e q') (e.2 :: visited)

/-- Fuel that provably outlasts the loop: each iteration either shrinks the
queue or settles one of the at most `4*R*C` states while pushing at most
three entries. -/
def mazeFuel (grid : List (List Char)) : ℕ :=
  12 * grid.length * (grid.headD []).length + 2

/-- Embeds `reindeer_maze` from day16.py: Dijkstra over `(position, facing)`
states from the start (facing East, pushed at cost 0), returning the cost
of the first popped entry at the end cell, or `-1` if the queue drains. -/
def reindeer_maze (grid : List (List Char)) (start endp : ℕ × ℕ) : Option ℤ :=
  reindeerMazeLoop grid endp (mazeFuel grid) [(0, start.1, start.2, 0)] []

end Day16

namespace Day16

/-- Rectangularity of the maze grid: every row has the length of row 0,
the length the source's bounds check `0 <= new_y < len(grid[0])` tests
against.  On a ragged grid a checked forward read `grid[new_x][new_y]`
can raise `IndexError`, which `cellAt` cannot express. -/
def RectGrid (grid : List (List Char)) : Prop :=
  ∀ row ∈ grid, row.length = (grid.headD []).length

theorem rectGrid_row_length {grid : List (List Char)} (hrect : RectGrid grid)
    {x : ℕ} (hx : x < grid.length) :
    (grid.getD x []).length = (grid.headD []).length := by
  apply hrect
  rw [List.getD_eq_getElem grid [] hx]
  exact grid.getElem_mem hx

/-- The forward move with the row read modelled exactly: when the source's
bounds check `0 <= new_x < len(grid) and 0 <= new_y < len(grid[0])`
succeeds, the read `grid[new_x][new_y]` raises `IndexError` (here
`.error ()`) if row `new_x` is shorter than row 0. -/
def fwdReadE (grid : List (List Char)) (s : St) : Except Unit (Option St) :=
  let d := directions.getD s.2.2 (0, 0)
  let nx : ℤ := (s.1 : ℤ) + d.1
  let ny : ℤ := (s.2.1 : ℤ) + d.2
  if 0 ≤ nx ∧ nx < grid.length ∧ 0 ≤ ny ∧ ny < (grid.headD []).length then
    match (grid.getD nx.toNat []).get? ny.toNat with
    | none => .error ()
    | some c => if c ≠ '#' then .ok (some (nx.toNat, ny.toNat, s.2.2)) else .ok none
  else .ok none

/-- The `reindeer_maze` loop with the `IndexError` path kept: `.error ()`
aborts the run the way the uncaught Python exception does, `.ok none` is
fuel exhaustion, `.ok (some n)` a normal return. -/
def reindeerMazeLoopE (grid : List (List Char)) (endp : ℕ × ℕ) :
    ℕ → List Entry → List St → Except Unit (Option ℤ)
  | 0, _, _ => .ok none
  | fuel + 1, q, visited =>
    match popMin q with
    | none => .ok (some (-1))
    | some (e, q') =>
      if (e.2.1, e.2.2.1) = endp then .ok (some (e.1 : ℤ))
      else if e.2 ∈ visited then reindeerMazeLoopE grid endp fuel q' visited
      else
        match fwdReadE grid e.2 with
        | .error () => .error ()
        | .ok ft =>
          reindeerMazeLoopE grid endp fuel
            ((e.1 + 1000, e.2.1, e.2.2.1, rotFacing e.2.2.2 1) ::
              (e.1 + 1000, e.2.1, e.2.2.1, rotFacing e.2.2.2 (-1)) ::
              (match ft with
                | some t => (e.1 + 1, t) :: q'
                | none => q')) (e.2 :: visited)

/-- `reindeer_maze` with the error path kept. -/
def reindeer_mazeE (grid : List (List Char)) (start endp : ℕ × ℕ) :
    Except Unit (Option ℤ) :=
  reindeerMazeLoopE grid endp (mazeFuel grid) [(0, start.1, start.2, 0)] []

theorem reindeerMazeLoopE_succ (grid : List (List Char)) (endp : ℕ × ℕ) (fuel : ℕ)
    (q : List Entry) (visited : List St) :
    reindeerMazeLoopE grid endp (fuel + 1) q visited =
      match popMin q with
      | none => .ok (some (-1))
      | some (e, q') =>
        if (e.2.1, e.2.2.1) = endp then .ok (some (e.1 : ℤ))
        else if e.2 ∈ visited then reindeerMazeLoopE grid endp fuel q' visited
        else
          match fwdReadE grid e.2 with
          | .error () => .error ()
          | .ok ft =>
            reindeerMazeLoopE grid endp fuel
              ((e.1 + 1000, e.2.1, e.2.2.1, rotFacing e.2.2.2 1) ::
                (e.1 + 1000, e.2.1, e.2.2.1, rotFacing e.2.2.2 (-1)) ::
                (match ft with
                  | some t => (e.1 + 1, t) :: q'
                  | none => q')) (e.2 :: visited) := rfl

theorem fwdE_core {grid : List (List Char)} (hrect : RectGrid grid)
    (nx ny : ℤ) (f : ℕ) :
    ((if 0 ≤ nx ∧ nx < grid.length ∧ 0 ≤ ny ∧ ny < (grid.headD []).length then
      match (grid.getD nx.toNat []).get? ny.toNat with
      | none => .error ()
      | some c => if c ≠ '#' then .ok (some (nx.toNat, ny.toNat, f)) else .ok none
    else .ok none) : Except Unit (Option St)) =
      .ok (if 0 ≤ nx ∧ nx < grid.length ∧ 0 ≤ ny ∧ ny < (grid.headD []).length ∧
          (grid.getD nx.toNat []).getD ny.toNat '#' ≠ '#' then
        some (nx.toNat, ny.toNat, f) else none) := by
  by_cases hb : 0 ≤ nx ∧ nx < grid.length ∧ 0 ≤ ny ∧ ny < (grid.headD []).length
  · rw [if_pos hb]
    obtain ⟨h1, h2, h3, h4⟩ := hb
    have hxlt : nx.toNat < grid.length := by omega
    have hylt : ny.toNat < (grid.getD nx.toNat []).length := by
      rw [rectGrid_row_length hrect hxlt]
      omega
    have hget : (grid.getD nx.toNat []).get? ny.toNat =
        some ((grid.getD nx.toNat []).getD ny.toNat '#') := by
      rw [List.get?_eq_getElem?, List.getElem?_eq_getElem hylt,
        List.getD_eq_getElem _ '#' hylt]
    rw [hget]
    dsimp only
    by_cases hw : (grid.getD nx.toNat []).getD ny.toNat '#' ≠ '#'
    · rw [if_pos hw, if_pos ⟨h1, h2, h3, h4, hw⟩]
    · rw [if_neg hw, if_neg (fun hcon => hw hcon.2.2.2.2)]
  · rw [if_neg hb, if_neg (fun hcon => hb ⟨hcon.1, hcon.2.1, hcon.2.2.1, hcon.2.2.2.1⟩)]

/-- On a rectangular grid the checked read never fails and agrees with the
wall-defaulted `fwdTarget`. -/
theorem fwdReadE_rect {grid : List (List Char)} (hrect : RectGrid grid) (s : St) :
    fwdReadE grid s = .ok (fwdTarget grid s) := by
  simp only [fwdReadE, fwdTarget, cellAt]
  exact fwdE_core hrect _ _ _

theorem fwdE_ok_core {grid : List (List Char)} {nx ny : ℤ} {f : ℕ} {ft : Option St}
    (h : ((if 0 ≤ nx ∧ nx < grid.length ∧ 0 ≤ ny ∧ ny < (grid.headD []).length then
      match (grid.getD nx.toNat []).get? ny.toNat with
      | none => .error ()
      | some c => if c ≠ '#' then .ok (some (nx.toNat, ny.toNat, f)) else .ok none
    else .ok none) : Except Unit (Option St)) = .ok ft) :
    (if 0 ≤ nx ∧ nx < grid.length ∧ 0 ≤ ny ∧ ny < (grid.headD []).length ∧
        (grid.getD nx.toNat []).getD ny.toNat '#' ≠ '#' then
      some (nx.toNat, ny.toNat, f) else none) = ft := by
  by_cases hb : 0 ≤ nx ∧ nx < grid.length ∧ 0 ≤ ny ∧ ny < (grid.headD []).length
  · rw [if_pos hb] at h
    cases hget : (grid.getD nx.toNat []).get? ny.toNat with
    | none =>
      rw [hget] at h
      exact Except.noConfusion h
    | some c =>
      rw [hget] at h
      dsimp only at h
      have hc : (grid.getD nx.toNat []).getD ny.toNat '#' = c := by
        rw [List.getD_eq_getElem?_getD, ← List.get?_eq_getElem?, hget]
        rfl
      rw [hc]
      by_cases hw : c ≠ '#'
      · rw [if_pos hw] at h
        rw [if_pos ⟨hb.1, hb.2.1, hb.2.2.1, hb.2.2.2, hw⟩]
        exact Except.ok.inj h
      · rw [if_neg hw] at h
        rw [if_neg (fun hcon => hw hcon.2.2.2.2)]
        exact Except.ok.inj h
  · rw [if_neg hb] at h
    rw [if_neg (fun hcon => hb ⟨hcon.1, hcon.2.1, hcon.2.2.1, hcon.2.2.2.1⟩)]
    exact Except.ok.inj h

/-- When the checked forward read does not raise (on any grid, rectangular
or not), it computes exactly the wall-defaulted `fwdTarget`. -/
theorem fwdReadE_ok {grid : List (List Char)} {s : St} {ft : Option St}
    (h : fwdReadE grid s = .ok ft) : fwdTarget grid s = ft := by
  simp only [fwdReadE, cellAt] at h
  simp only [fwdTarget, cellAt]
  exact fwdE_ok_core h

end Day16

namespace Day16

/-- The cost-labelled transition relation of the maze: a forward move onto
an in-range non-wall cell costs 1; a quarter rotation (either way) costs
1000. -/
inductive Edge (grid : List (List Char)) : St → ℕ → St → Prop
  | fwd {s t : St} : fwdTarget grid s = some t → Edge grid s 1 t
  | rot (s : St) (r : ℤ) : r = -1 ∨ r = 1 →
      Edge grid s 1000 (s.1, s.2.1, rotFacing s.2.2 r)

/-- `Reach grid s0 s c`: some sequence of forward moves and rotations
starting at `s0` reaches state `s` with total cost `c`. -/
inductive Reach (grid : List (List Char)) (s0 : St) : St → ℕ → Prop
  | init : Reach grid s0 s0 0
  | step {s c w t} : Reach grid s0 s c → Edge grid s w t → Reach grid s0 t (c + w)

/-- The set of total path costs from the start state to the end cell (under
any facing). -/
def EndCosts (grid : List (List Char)) (s0 : St) (endp : ℕ × ℕ) : Set ℕ :=
  { c | ∃ f, Reach grid s0 (endp.1, endp.2, f) c }

/-- All states the search can ever enqueue when the start is a grid cell. -/
def stUniv (grid : List (List Char)) : Finset St :=
  Finset.range grid.length ×ˢ
    Finset.range (grid.headD []).length ×ˢ Finset.range 4

/-- The loop invariant of `reindeer_maze`:
queue entries carry genuine path costs; each settled state was settled at
its exact shortest distance with all its out-edges relaxed; the start is
settled or enqueued at cost 0; no end state is ever settled (a popped end
entry returns instead); and everything stays inside the finite state
universe. -/
structure MazeInv (grid : List (List Char)) (s0 : St) (endp : ℕ × ℕ)
    (q : List Entry) (visited : List St) : Prop where
  hq : ∀ e ∈ q, Reach grid s0 e.2 e.1
  hvis : ∀ s ∈ visited, ∃ cs, IsLeast { c | Reach grid s0 s c } cs ∧
    ∀ w t, Edge grid s w t → t ∈ visited ∨ ∃ c', c' ≤ cs + w ∧ ((c', t) : Entry) ∈ q
  hinit : s0 ∈ visited ∨ ((0, s0) : Entry) ∈ q
  hnoend : ∀ f, ((endp.1, endp.2, f) : St) ∉ visited
  hvisU : ∀ s ∈ visited, s ∈ stUniv grid
  hqU : ∀ e ∈ q, e.2 ∈ stUniv grid

/-- The termination measure of the loop. -/
def mazeMeasure (grid : List (List Char)) (q : List Entry) (visited : List St) : ℕ :=
  q.length + 3 * ((stUniv grid).filter (fun s => s ∉ visited)).card

/-- Under the invariant, every reachable state is settled or has a queue
entry at no greater cost than (some prefix of) its path. -/
theorem inv_cover {grid : List (List Char)} {s0 : St} {endp : ℕ × ℕ}
    {q : List Entry} {visited : List St}
    (inv : MazeInv grid s0 endp q visited) :
    ∀ {s c}, Reach grid s0 s c → s ∈ visited ∨ ∃ e ∈ q, e.1 ≤ c := by
  intro s c hr
  induction hr with
  | init =>
    rcases inv.hinit with h | h
    · exact Or.inl h
    · exact Or.inr ⟨(0, s0), h, le_refl 0⟩
  | step hr' hedge ih =>
    rename_i s' c' w t
    rcases ih with hs | ⟨e, he, hle⟩
    · obtain ⟨cs, hcs, hedges⟩ := inv.hvis s' hs
      rcases hedges w t hedge with ht | ⟨c'', hc'', hmem⟩
      · exact Or.inl ht
      · refine Or.inr ⟨(c'', t), hmem, ?_⟩
        have hle2 : cs ≤ c' := hcs.2 hr'
        simpa using by omega
    · exact Or.inr ⟨e, he, by omega⟩

theorem pushSuccs_covers {grid : List (List Char)} {e : Entry} {q : List Entry}
    {w : ℕ} {t : St} (hedge : Edge grid e.2 w t) :
    ∃ c', c' ≤ e.1 + w ∧ ((c', t) : Entry) ∈ pushSuccs grid e q := by
  cases hedge with
  | fwd hft =>
    refine ⟨e.1 + 1, le_refl _, ?_⟩
    unfold pushSuccs
    rw [hft]
    simp
  | rot r hr =>
    refine ⟨e.1 + 1000, le_refl _, ?_⟩
    unfold pushSuccs
    rcases hr with rfl | rfl <;> simp

theorem pushSuccs_superset {grid : List (List Char)} {e : Entry} {q : List Entry} :
    ∀ x ∈ q, x ∈ pushSuccs grid e q := by
  intro x hx
  unfold pushSuccs
  cases hft : fwdTarget grid e.2 <;> simp [hx]

theorem pushSuccs_mem {grid : List (List Char)} {e : Entry} {q : List Entry}
    {x : Entry} (hx : x ∈ pushSuccs grid e q) :
    x = (e.1 + 1000, e.2.1, e.2.2.1, rotFacing e.2.2.2 1) ∨
    x = (e.1 + 1000, e.2.1, e.2.2.1, rotFacing e.2.2.2 (-1)) ∨
    (∃ t, fwdTarget grid e.2 = some t ∧ x = (e.1 + 1, t)) ∨ x ∈ q := by
  unfold pushSuccs at hx
  cases hft : fwdTarget grid e.2 with
  | none =>
    rw [hft] at hx
    rcases List.mem_cons.mp hx with h | h
    · exact Or.inl h
    rcases List.mem_cons.mp h with h2 | h2
    · exact Or.inr (Or.inl h2)
    · exact Or.inr (Or.inr (Or.inr h2))
  | some t =>
    rw [hft] at hx
    rcases List.mem_cons.mp hx with h | h
    · exact Or.inl h
    rcases List.mem_cons.mp h with h2 | h2
    · exact Or.inr (Or.inl h2)
    rcases List.mem_cons.mp h2 with h3 | h3
    · exact Or.inr (Or.inr (Or.inl ⟨t, rfl, h3⟩))
    · exact Or.inr (Or.inr (Or.inr h3))

theorem pushSuccs_length {grid : List (List Char)} {e : Entry} {q : List Entry} :
    (pushSuccs grid e q).length ≤ q.length + 3 := by
  unfold pushSuccs
  cases fwdTarget grid e.2 <;> simp

theorem fwdTarget_univ {grid : List (List Char)} {s t : St}
    (hs : s ∈ stUniv grid) (h : fwdTarget grid s = some t) : t ∈ stUniv grid := by
  unfold fwdTarget at h
  simp only at h
  split_ifs at h with hcond
  · obtain ⟨h1, h2, h3, h4, -⟩ := hcond
    obtain rfl : (((s.1 : ℤ) + (directions.getD s.2.2 (0, 0)).1).toNat,
        ((s.2.1 : ℤ) + (directions.getD s.2.2 (0, 0)).2).toNat, s.2.2) = t :=
      Option.some_injective _ h
    simp only [stUniv, Finset.mem_product, Finset.mem_range] at hs ⊢
    refine ⟨by omega, by omega, hs.2.2⟩

theorem rot_univ {grid : List (List Char)} {s : St} (hs : s ∈ stUniv grid) (r : ℤ) :
    ((s.1, s.2.1, rotFacing s.2.2 r) : St) ∈ stUniv grid := by
  simp only [stUniv, Finset.mem_product, Finset.mem_range] at hs ⊢
  refine ⟨hs.1, hs.2.1, ?_⟩
  unfold rotFacing
  have h1 : 0 ≤ ((s.2.2 : ℤ) + r) % 4 := Int.emod_nonneg _ (by norm_num)
  have h2 : ((s.2.2 : ℤ) + r) % 4 < 4 := Int.emod_lt_of_pos _ (by norm_num)
  omega

end Day16

namespace Day16

theorem reindeerMazeLoop_succ (grid : List (List Char)) (endp : ℕ × ℕ) (fuel : ℕ)
    (q : List Entry) (visited : List St) :
    reindeerMazeLoop grid endp (fuel + 1) q visited =
      match popMin q with
      | none => some (-1)
      | some (e, q') =>
        if (e.2.1, e.2.2.1) = endp then some (e.1 : ℤ)
        else if e.2 ∈ visited then reindeerMazeLoop grid endp fuel q' visited
        else reindeerMazeLoop grid endp fuel (pushSuccs grid e q') (e.2 :: visited) := rfl

/-- On a rectangular grid the error-faithful loop never raises and computes
the same answer as the wall-defaulted loop. -/
theorem reindeerMazeLoopE_rect {grid : List (List Char)} (hrect : RectGrid grid)
    (endp : ℕ × ℕ) :
    ∀ (fuel : ℕ) (q : List Entry) (visited : List St),
      reindeerMazeLoopE grid endp fuel q visited =
        .ok (reindeerMazeLoop grid endp fuel q visited) := by
  intro fuel
  induction fuel with
  | zero =>
    intro q visited
    rfl
  | succ fuel ih =>
    intro q visited
    rw [reindeerMazeLoopE_succ, reindeerMazeLoop_succ]
    cases hpop : popMin q with
    | none => rfl
    | some pr =>
      obtain ⟨e, q'⟩ := pr
      dsimp only
      by_cases hend : ((e.2.1, e.2.2.1) : ℕ × ℕ) = endp
      · rw [if_pos hend, if_pos hend]
      · rw [if_neg hend, if_neg hend]
        by_cases hvis : e.2 ∈ visited
        · rw [if_pos hvis, if_pos hvis]
          exact ih q' visited
        · rw [if_neg hvis, if_neg hvis]
          rw [fwdReadE_rect hrect e.2]
          exact ih _ _

theorem reindeer_mazeE_rect {grid : List (List Char)} (hrect : RectGrid grid)
    (start endp : ℕ × ℕ) :
    reindeer_mazeE grid start endp = .ok (reindeer_maze grid start endp) :=
  reindeerMazeLoopE_rect hrect endp (mazeFuel grid) _ _

/-- Main correctness of the `reindeer_maze` loop: under the invariant and
with enough fuel, it returns the least end cost when one exists and `-1`
when the end cell is unreachable. -/
theorem reindeerMazeLoop_correct (grid : List (List Char)) (s0 : St) (endp : ℕ × ℕ) :
    ∀ (fuel : ℕ) (q : List Entry) (visited : List St),
      MazeInv grid s0 endp q visited → mazeMeasure grid q visited < fuel →
      (∀ m, IsLeast (EndCosts grid s0 endp) m →
        reindeerMazeLoop grid endp fuel q visited = some (m : ℤ)) ∧
      ((∀ c, c ∉ EndCosts grid s0 endp) →
        reindeerMazeLoop grid endp fuel q visited = some (-1)) := by
  intro fuel
  induction fuel with
  | zero =>
    intro q visited _ hm
    omega
  | succ fuel ih =>
    intro q visited inv hfuel
    rw [reindeerMazeLoop_succ]
    cases hpop : popMin q with
    | none =>
      have hqnil : q = [] := popMin_none.mp hpop
      constructor
      · intro m hm
        exfalso
        obtain ⟨f, hreach⟩ := hm.1
        rcases inv_cover inv hreach with hv | ⟨e, he, -⟩
        · exact inv.hnoend f hv
        · rw [hqnil] at he
          simp at he
      · intro _
        rfl
    | some pr =>
      obtain ⟨e, q'⟩ := pr
      obtain ⟨hmem, hminle, hlen, hsplit, hsub⟩ := popMin_spec hpop
      have hreache : Reach grid s0 e.2 e.1 := inv.hq e hmem
      by_cases hend : ((e.2.1, e.2.2.1) : ℕ × ℕ) = endp
      · have hisleast : IsLeast (EndCosts grid s0 endp) e.1 := by
          constructor
          · refine ⟨e.2.2.2, ?_⟩
            have hst : ((endp.1, endp.2, e.2.2.2) : St) = e.2 := by
              rw [← hend]
            rw [hst]
            exact hreache
          · intro c hc
            obtain ⟨f, hrc⟩ := hc
            rcases inv_cover inv hrc with hv | ⟨e', he', hle⟩
            · exact absurd hv (inv.hnoend f)
            · exact le_trans (entryLe_cost (hminle e' he')) hle
        constructor
        · intro m hm
          obtain rfl : m = e.1 := hm.unique hisleast
          simp only [if_pos hend]
        · intro hnone
          exact absurd hisleast.1 (hnone e.1)
      · simp only [if_neg hend]
        by_cases hvis : e.2 ∈ visited
        · -- skip an already settled state
          have inv' : MazeInv grid s0 endp q' visited := by
            refine ⟨fun x hx => inv.hq x (hsub x hx), ?_, ?_, inv.hnoend, inv.hvisU,
              fun x hx => inv.hqU x (hsub x hx)⟩
            · intro s hs
              obtain ⟨cs, hcs, hedges⟩ := inv.hvis s hs
              refine ⟨cs, hcs, ?_⟩
              intro w t hedge
              rcases hedges w t hedge with ht | ⟨c', hc', hmemq⟩
              · exact Or.inl ht
              · rcases hsplit _ hmemq with heq | hq'
                · left
                  have ht2 : t = e.2 := congrArg Prod.snd heq
                  rw [ht2]
                  exact hvis
                · exact Or.inr ⟨c', hc', hq'⟩
            · rcases inv.hinit with h | h
              · exact Or.inl h
              · rcases hsplit _ h with heq | hq'
                · left
                  have hs2 : s0 = e.2 := congrArg Prod.snd heq
                  rw [hs2]
                  exact hvis
                · exact Or.inr hq'
          have hmeas : mazeMeasure grid q' visited < fuel := by
            unfold mazeMeasure at hfuel ⊢
            omega
          have hrec := ih q' visited inv' hmeas
          rw [if_pos hvis]
          exact hrec
        · -- expand a fresh state
          rw [if_neg hvis]
          have hleast_e : IsLeast { c | Reach grid s0 e.2 c } e.1 := by
            constructor
            · exact hreache
            · intro c hc
              rcases inv_cover inv hc with hv | ⟨e', he', hle⟩
              · exact absurd hv hvis
              · exact le_trans (entryLe_cost (hminle e' he')) hle
          have heu : e.2 ∈ stUniv grid := inv.hqU e hmem
          have inv' : MazeInv grid s0 endp (pushSuccs grid e q') (e.2 :: visited) := by
            refine ⟨?_, ?_, ?_, ?_, ?_, ?_⟩
            · intro x hx
              rcases pushSuccs_mem hx with h1 | h1 | ⟨t, hft, h1⟩ | h1
              · rw [h1]
                exact Reach.step hreache (Edge.rot e.2 1 (Or.inr rfl))
              · rw [h1]
                exact Reach.step hreache (Edge.rot e.2 (-1) (Or.inl rfl))
              · rw [h1]
                exact Reach.step hreache (Edge.fwd hft)
              · exact inv.hq x (hsub x h1)
            · intro s hs
              rcases List.mem_cons.mp hs with rfl | hs1
              · refine ⟨e.1, hleast_e, ?_⟩
                intro w t hedge
                obtain ⟨c', hc', hmemq⟩ := pushSuccs_covers hedge
                exact Or.inr ⟨c', hc', hmemq⟩
              · obtain ⟨cs, hcs, hedges⟩ := inv.hvis s hs1
                refine ⟨cs, hcs, ?_⟩
                intro w t hedge
                rcases hedges w t hedge with ht | ⟨c', hc', hmemq⟩
                · exact Or.inl (List.mem_cons_of_mem _ ht)
                · rcases hsplit _ hmemq with heq | hq'
                  · left
                    have ht2 : t = e.2 := congrArg Prod.snd heq
                    rw [ht2]
                    exact List.mem_cons_self _ _
                  · exact Or.inr ⟨c', hc', pushSuccs_superset _ hq'⟩
            · rcases inv.hinit with h | h
              · exact Or.inl (List.mem_cons_of_mem _ h)
              · rcases hsplit _ h with heq | hq'
                · left
                  have hs2 : s0 = e.2 := congrArg Prod.snd heq
                  rw [hs2]
                  exact List.mem_cons_self _ _
                · exact Or.inr (pushSuccs_superset _ hq')
            · intro f hf
              rcases List.mem_cons.mp hf with hfe | hfv
              · apply hend
                rw [← hfe]
              · exact inv.hnoend f hfv
            · intro s hs
              rcases List.mem_cons.mp hs with rfl | hs1
              · exact heu
              · exact inv.hvisU s hs1
            · intro x hx
              rcases pushSuccs_mem hx with h1 | h1 | ⟨t, hft, h1⟩ | h1
              · rw [h1]
                exact rot_univ heu 1
              · rw [h1]
                exact rot_univ heu (-1)
              · rw [h1]
                exact fwdTarget_univ heu hft
              · exact inv.hqU x (hsub x h1)
          have hmeas : mazeMeasure grid (pushSuccs grid e q') (e.2 :: visited) < fuel := by
            have hfilter : (stUniv grid).filter (fun s => s ∉ (e.2 :: visited)) =
                ((stUniv grid).filter (fun s => s ∉ visited)).erase e.2 := by
              ext s
              simp only [Finset.mem_filter, Finset.mem_erase, List.mem_cons]
              constructor
              · rintro ⟨hu, hnot⟩
                exact ⟨fun hcc => hnot (Or.inl hcc), hu, fun hcc => hnot (Or.inr hcc)⟩
              · rintro ⟨hne, hu, hnot⟩
                exact ⟨hu, fun hcc => hcc.elim hne hnot⟩
            have hemem : e.2 ∈ (stUniv grid).filter (fun s => s ∉ visited) :=
              Finset.mem_filter.mpr ⟨heu, hvis⟩
            have hcard : (((stUniv grid).filter (fun s => s ∉ visited)).erase e.2).card + 1 =
                ((stUniv grid).filter (fun s => s ∉ visited)).card := by
              rw [Finset.card_erase_of_mem hemem]
              have := Finset.card_pos.mpr ⟨e.2, hemem⟩
              omega
            have hlen3 : (pushSuccs grid e q').length ≤ q'.length + 3 := pushSuccs_length
            unfold mazeMeasure at hfuel ⊢
            rw [hfilter]
            omega
          have hrec := ih (pushSuccs grid e q') (e.2 :: visited) inv' hmeas
          exact hrec

end Day16

namespace Day16

theorem initial_inv (grid : List (List Char)) (sx sy : ℕ) (endp : ℕ × ℕ)
    (hsx : sx < grid.length) (hsy : sy < (grid.headD []).length) :
    MazeInv grid (sx, sy, 0) endp [(0, sx, sy, 0)] [] := by
  refine ⟨?_, ?_, ?_, ?_, ?_, ?_⟩
  · intro e he
    obtain rfl : e = (0, sx, sy, 0) := by simpa using he
    exact Reach.init
  · intro s hs
    simp at hs
  · right
    simp
  · intro f hf
    simp at hf
  · intro s hs
    simp at hs
  · intro e he
    obtain rfl : e = (0, sx, sy, 0) := by simpa using he
    simp only [stUniv, Finset.mem_product, Finset.mem_range]
    exact ⟨hsx, hsy, by norm_num⟩

theorem initial_measure_lt (grid : List (List Char)) (sx sy : ℕ) :
    mazeMeasure grid [((0, sx, sy, 0) : Entry)] [] < mazeFuel grid := by
  unfold mazeMeasure mazeFuel
  have hcard : ((stUniv grid).filter (fun s => s ∉ ([] : List St))).card ≤
      grid.length * ((grid.headD []).length * 4) :=
    le_trans (Finset.card_filter_le _ _)
      (le_of_eq (by simp [stUniv, Finset.card_product]))
  have h12 : 12 * grid.length * (grid.headD []).length =
      3 * (grid.length * ((grid.headD []).length * 4)) := by ring
  rw [h12]
  simp only [List.length_singleton]
  omega

/-- Claim C1 (amended: rectangular grids): for every rectangular maze grid
(each row as long as row 0, so the source's bounds check against
`len(grid[0])` implies every forward read is in range) with a start cell
and an end cell such that the end cell is reachable, `reindeer_maze`
returns the minimum total cost of a path from the start state (initially
facing East) to the end cell, where each forward move onto an in-range
non-wall cell costs 1 and each 90-degree rotation costs 1000 (the
hypothesis packages reachability and minimality as `IsLeast` of the set of
achievable end costs); the error-faithful run returns the same value. -/
theorem reindeer_maze_min (grid : List (List Char)) (sx sy : ℕ) (endp : ℕ × ℕ) (m : ℕ)
    (hrect : RectGrid grid)
    (hsx : sx < grid.length) (hsy : sy < (grid.headD []).length)
    (hm : IsLeast (EndCosts grid (sx, sy, 0) endp) m) :
    reindeer_maze grid (sx, sy) endp = some (m : ℤ) ∧
      reindeer_mazeE grid (sx, sy) endp = .ok (some (m : ℤ)) := by
  have h : reindeer_maze grid (sx, sy) endp = some (m : ℤ) :=
    (reindeerMazeLoop_correct grid (sx, sy, 0) endp (mazeFuel grid) _ _
      (initial_inv grid sx sy endp hsx hsy) (initial_measure_lt grid sx sy)).1 m hm
  exact ⟨h, by rw [reindeer_mazeE_rect hrect, h]⟩

/-- Claim C3 (amended: rectangular grids): for every rectangular maze grid
with a start cell and an end cell such that no sequence of forward moves
and rotations reaches the end cell, `reindeer_maze` terminates and returns
the sentinel value `-1`; the error-faithful run returns the same value
(on a ragged grid the loop can instead abort with `IndexError` while
draining the queue). -/
theorem reindeer_maze_unreachable (grid : List (List Char)) (sx sy : ℕ) (endp : ℕ × ℕ)
    (hrect : RectGrid grid)
    (hsx : sx < grid.length) (hsy : sy < (grid.headD []).length)
    (hunreach : ∀ c, c ∉ EndCosts grid (sx, sy, 0) endp) :
    reindeer_maze grid (sx, sy) endp = some (-1) ∧
      reindeer_mazeE grid (sx, sy) endp = .ok (some (-1)) := by
  have h : reindeer_maze grid (sx, sy) endp = some (-1) :=
    (reindeerMazeLoop_correct grid (sx, sy, 0) endp (mazeFuel grid) _ _
      (initial_inv grid sx sy endp hsx hsy) (initial_measure_lt grid sx sy)).2 hunreach
  exact ⟨h, by rw [reindeer_mazeE_rect hrect, h]⟩

theorem edge_weight {grid : List (List Char)} {s : St} {w : ℕ} {t : St}
    (h : Edge grid s w t) : 1 ≤ w := by
  cases h <;> omega

theorem reach_cost_zero {grid : List (List Char)} {s0 s : St} {c : ℕ}
    (h : Reach grid s0 s c) (hc : c = 0) : s = s0 := by
  cases h with
  | init => rfl
  | step hr hedge => exact absurd hc (by have := edge_weight hedge; omega)

/-- A 3x3 maze whose start and end are adjacent, for the C1 witness. -/
def mazeG1 : List (List Char) := [['#', '#', '#'], ['#', 'S', 'E'], ['#', '#', '#']]

/-- Witness for C1: on `mazeG1` the unique shortest path is one forward
move, so the minimum cost is 1 and `reindeer_maze` returns 1. -/
theorem reindeer_maze_min_witness :
    (RectGrid mazeG1 ∧ 1 < mazeG1.length ∧ 1 < (mazeG1.headD []).length ∧
      IsLeast (EndCosts mazeG1 (1, 1, 0) (1, 2)) 1) ∧
      reindeer_maze mazeG1 (1, 1) (1, 2) = some 1 ∧
      reindeer_mazeE mazeG1 (1, 1) (1, 2) = .ok (some 1) := by
  have hle : IsLeast (EndCosts mazeG1 (1, 1, 0) (1, 2)) 1 := by
    constructor
    · exact ⟨0, show Reach mazeG1 (1, 1, 0) (1, 2, 0) (0 + 1) from
        Reach.step Reach.init (Edge.fwd (by decide))⟩
    · intro c hc
      obtain ⟨f, hr⟩ := hc
      rcases Nat.eq_zero_or_pos c with rfl | hpos
      · have h0 := reach_cost_zero hr rfl
        simp at h0
      · exact hpos
  exact ⟨⟨by unfold RectGrid; decide, by norm_num [mazeG1], by norm_num [mazeG1], hle⟩,
    reindeer_maze_min mazeG1 1 1 (1, 2) 1 (by unfold RectGrid; decide)
      (by norm_num [mazeG1]) (by norm_num [mazeG1]) hle⟩

/-- A 1x1 maze from which no other cell is reachable, for the C3 witness. -/
def mazeG2 : List (List Char) := [['S']]

theorem mazeG2_reach_pos {s : St} {c : ℕ} (h : Reach mazeG2 (0, 0, 0) s c) :
    s.1 = 0 ∧ s.2.1 = 0 := by
  induction h with
  | init => exact ⟨rfl, rfl⟩
  | step hr hedge ih =>
    cases hedge with
    | fwd hft =>
      rename_i s' c' t
      obtain ⟨x, y, f⟩ := s'
      obtain ⟨h1, h2⟩ := ih
      simp only at h1 h2
      subst h1
      subst h2
      by_cases hf : f < 4
      · exfalso
        have hnone : fwdTarget mazeG2 (0, 0, f) = none := by
          interval_cases f <;> decide
        rw [hnone] at hft
        exact Option.noConfusion hft
      · unfold fwdTarget at hft
        rw [List.getD_eq_default _ _ (by simp [directions]; omega)] at hft
        simp [mazeG2, cellAt] at hft
        obtain ⟨rfl, rfl, -⟩ := hft
        exact ⟨rfl, rfl⟩
    | rot r hr =>
      exact ⟨ih.1, ih.2⟩

/-- Witness for C3: on `mazeG2` the cell `(0, 5)` is unreachable, so
`reindeer_maze` returns `-1`. -/
theorem reindeer_maze_unreachable_witness :
    (RectGrid mazeG2 ∧ 0 < mazeG2.length ∧ 0 < (mazeG2.headD []).length ∧
      (∀ c, c ∉ EndCosts mazeG2 (0, 0, 0) (0, 5))) ∧
      reindeer_maze mazeG2 (0, 0) (0, 5) = some (-1) ∧
      reindeer_mazeE mazeG2 (0, 0) (0, 5) = .ok (some (-1)) := by
  have hunreach : ∀ c, c ∉ EndCosts mazeG2 (0, 0, 0) (0, 5) := by
    rintro c ⟨f, hr⟩
    have h5 := (mazeG2_reach_pos hr).2
    simp at h5
  exact ⟨⟨by unfold RectGrid; decide, by norm_num [mazeG2], by norm_num [mazeG2], hunreach⟩,
    reindeer_maze_unreachable mazeG2 0 0 (0, 5) (by unfold RectGrid; decide)
      (by norm_num [mazeG2]) (by norm_num [mazeG2]) hunreach⟩

/-- A ragged grid: row 1 is shorter than row 0, so the forward read from
`(0, 2)` facing South passes the source's `len(grid[0])` bounds check and
raises `IndexError` on `grid[1][2]`. -/
def raggedG1 : List (List Char) := [['E', '.', 'S'], ['.', '.']]

/-- Counterexample to the unqualified claim C1: on the ragged grid
`raggedG1` the end `(0, 0)` is reachable at cost 2002 (rotate twice, walk
west twice), so the claim as stated demands that `reindeer_maze` return
the minimum cost; but the error-faithful run aborts with the `IndexError`
on its second pop (the read `grid[1][2]`), while the wall-defaulted model
would return 2002 -- the source crashes instead of returning. -/
theorem reindeer_maze_ragged_crash :
    reindeer_mazeE raggedG1 (0, 2) (0, 0) = .error () ∧
      2002 ∈ EndCosts raggedG1 (0, 2, 0) (0, 0) ∧
      reindeer_maze raggedG1 (0, 2) (0, 0) = some 2002 := by
  refine ⟨rfl, ⟨2, ?_⟩, rfl⟩
  have h1 : Reach raggedG1 (0, 2, 0) (0, 2, 1) (0 + 1000) :=
    Reach.step Reach.init (Edge.rot (0, 2, 0) 1 (Or.inr rfl))
  have h2 : Reach raggedG1 (0, 2, 0) (0, 2, 2) (0 + 1000 + 1000) :=
    Reach.step h1 (Edge.rot (0, 2, 1) 1 (Or.inr rfl))
  have h3 : Reach raggedG1 (0, 2, 0) (0, 1, 2) (0 + 1000 + 1000 + 1) :=
    Reach.step h2 (Edge.fwd (by decide))
  exact Reach.step h3 (Edge.fwd (by decide))

/-- A ragged grid with a shorter second row: expanding `(0, 1)` facing
South passes the bounds check and crashes reading `grid[1][1]`. -/
def raggedG2 : List (List Char) := [['S', '.'], ['.']]

/-- The states reachable from the start of `raggedG2` in the transition
semantics: three positions under all four facings. -/
def raggedG2Allowed : List St :=
  [(0, 0, 0), (0, 0, 1), (0, 0, 2), (0, 0, 3),
   (0, 1, 0), (0, 1, 1), (0, 1, 2), (0, 1, 3),
   (1, 0, 0), (1, 0, 1), (1, 0, 2), (1, 0, 3)]

theorem raggedG2_reach_allowed {s : St} {c : ℕ}
    (h : Reach raggedG2 (0, 0, 0) s c) : s ∈ raggedG2Allowed := by
  induction h with
  | init => decide
  | step hr hedge ih =>
    cases hedge with
    | fwd hft =>
      rename_i s' c' t
      have hall : ∀ s2 ∈ raggedG2Allowed,
          (fwdTarget raggedG2 s2).getD (0, 0, 0) ∈ raggedG2Allowed := by decide
      have hmem := hall s' ih
      rw [hft] at hmem
      exact hmem
    | rot r hrot =>
      rcases hrot with rfl | rfl
      · have hall : ∀ s2 ∈ raggedG2Allowed,
            (s2.1, s2.2.1, rotFacing s2.2.2 (-1)) ∈ raggedG2Allowed := by decide
        exact hall _ ih
      · have hall : ∀ s2 ∈ raggedG2Allowed,
            (s2.1, s2.2.1, rotFacing s2.2.2 1) ∈ raggedG2Allowed := by decide
        exact hall _ ih

/-- Counterexample to the unqualified claim C3: on the ragged grid
`raggedG2` the end `(0, 5)` is unreachable, so the claim as stated demands
termination with `-1`; the wall-defaulted model does drain the queue to
`-1`, but the error-faithful run aborts with the `IndexError` on
`grid[1][1]` while draining -- the source crashes instead of returning. -/
theorem reindeer_maze_unreachable_ragged_crash :
    reindeer_mazeE raggedG2 (0, 0) (0, 5) = .error () ∧
      (∀ c, c ∉ EndCosts raggedG2 (0, 0, 0) (0, 5)) ∧
      reindeer_maze raggedG2 (0, 0) (0, 5) = some (-1) := by
  refine ⟨rfl, ?_, rfl⟩
  rintro c ⟨f, hr⟩
  have hmem := raggedG2_reach_allowed hr
  have hcol : ∀ s2 ∈ raggedG2Allowed, s2.2.1 ≤ 1 := by decide
  have h5 : (5 : ℕ) ≤ 1 := hcol _ hmem
  omega

end Day16

namespace Day16

/-- The pop trace of the `reindeer_maze` loop: each popped entry paired
with a flag telling whether that pop expanded the state (added it to the
visited set), as opposed to being skipped as already settled or returning
at the end cell. -/
def reindeerMazeTrace (grid : List (List Char)) (endp : ℕ × ℕ) :
    ℕ → List Entry → List St → List (Entry × Bool)
  | 0, _, _ => []
  | fuel + 1, q, visited =>
    match popMin q with
    | none => []
    | some (e, q') =>
      if (e.2.1, e.2.2.1) = endp then [(e, false)]
      else if e.2 ∈ visited then
        (e, false) :: reindeerMazeTrace grid endp fuel q' visited
      else
        (e, true) :: reindeerMazeTrace grid endp fuel (pushSuccs grid e q') (e.2 :: visited)

theorem reindeerMazeTrace_succ (grid : List (List Char)) (endp : ℕ × ℕ) (fuel : ℕ)
    (q : List Entry) (visited : List St) :
    reindeerMazeTrace grid endp (fuel + 1) q visited =
      match popMin q with
      | none => []
      | some (e, q') =>
        if (e.2.1, e.2.2.1) = endp then [(e, false)]
        else if e.2 ∈ visited then
          (e, false) :: reindeerMazeTrace grid endp fuel q' visited
        else
          (e, true) :: reindeerMazeTrace grid endp fuel (pushSuccs grid e q') (e.2 :: visited) :=
  rfl

/-- The trace of the embedded `reindeer_maze` run. -/
def mazeTrace (grid : List (List Char)) (start endp : ℕ × ℕ) : List (Entry × Bool) :=
  reindeerMazeTrace grid endp (mazeFuel grid) [(0, start.1, start.2, 0)] []

/-- The error-faithful pop trace: the source adds the popped state to
`visited` before the forward read, so a run that aborts with `IndexError`
has performed exactly the pops up to and including the aborting expansion;
the trace truncates there. -/
def reindeerMazeTraceE (grid : List (List Char)) (endp : ℕ × ℕ) :
    ℕ → List Entry → List St → List (Entry × Bool)
  | 0, _, _ => []
  | fuel + 1, q, visited =>
    match popMin q with
    | none => []
    | some (e, q') =>
      if (e.2.1, e.2.2.1) = endp then [(e, false)]
      else if e.2 ∈ visited then
        (e, false) :: reindeerMazeTraceE grid endp fuel q' visited
      else
        match fwdReadE grid e.2 with
        | .error _ => [(e, true)]
        | .ok ft =>
          (e, true) :: reindeerMazeTraceE grid endp fuel
            ((e.1 + 1000, e.2.1, e.2.2.1, rotFacing e.2.2.2 1) ::
              (e.1 + 1000, e.2.1, e.2.2.1, rotFacing e.2.2.2 (-1)) ::
              (match ft with
                | some t => (e.1 + 1, t) :: q'
                | none => q')) (e.2 :: visited)

theorem reindeerMazeTraceE_succ (grid : List (List Char)) (endp : ℕ × ℕ) (fuel : ℕ)
    (q : List Entry) (visited : List St) :
    reindeerMazeTraceE grid endp (fuel + 1) q visited =
      match popMin q with
      | none => []
      | some (e, q') =>
        if (e.2.1, e.2.2.1) = endp then [(e, false)]
        else if e.2 ∈ visited then
          (e, false) :: reindeerMazeTraceE grid endp fuel q' visited
        else
          match fwdReadE grid e.2 with
          | .error _ => [(e, true)]
          | .ok ft =>
            (e, true) :: reindeerMazeTraceE grid endp fuel
              ((e.1 + 1000, e.2.1, e.2.2.1, rotFacing e.2.2.2 1) ::
                (e.1 + 1000, e.2.1, e.2.2.1, rotFacing e.2.2.2 (-1)) ::
                (match ft with
                  | some t => (e.1 + 1, t) :: q'
                  | none => q')) (e.2 :: visited) := rfl

/-- The error-faithful trace of the embedded run. -/
def mazeTraceE (grid : List (List Char)) (start endp : ℕ × ℕ) : List (Entry × Bool) :=
  reindeerMazeTraceE grid endp (mazeFuel grid) [(0, start.1, start.2, 0)] []

/-- The error-faithful trace is a sublist (in fact a prefix) of the
wall-defaulted trace: the two runs take identical branches until the first
failing read, where the faithful trace stops with that final expansion. -/
theorem traceE_sublist (grid : List (List Char)) (endp : ℕ × ℕ) :
    ∀ (fuel : ℕ) (q : List Entry) (visited : List St),
      (reindeerMazeTraceE grid endp fuel q visited).Sublist
        (reindeerMazeTrace grid endp fuel q visited) := by
  intro fuel
  induction fuel with
  | zero =>
    intro q visited
    exact List.Sublist.refl _
  | succ fuel ih =>
    intro q visited
    rw [reindeerMazeTraceE_succ, reindeerMazeTrace_succ]
    cases hpop : popMin q with
    | none => exact List.Sublist.refl _
    | some pr =>
      obtain ⟨e, q'⟩ := pr
      dsimp only
      by_cases hend : ((e.2.1, e.2.2.1) : ℕ × ℕ) = endp
      · rw [if_pos hend, if_pos hend]
      · rw [if_neg hend, if_neg hend]
        by_cases hvis : e.2 ∈ visited
        · rw [if_pos hvis, if_pos hvis]
          exact List.Sublist.cons₂ _ (ih q' visited)
        · rw [if_neg hvis, if_neg hvis]
          cases hread : fwdReadE grid e.2 with
          | error u =>
            dsimp only
            exact List.Sublist.cons₂ _ (List.nil_sublist _)
          | ok ft =>
            dsimp only
            have hft : fwdTarget grid e.2 = ft := fwdReadE_ok hread
            rw [← hft]
            exact List.Sublist.cons₂ _ (ih _ _)

theorem pushSuccs_lb {grid : List (List Char)} {e : Entry} {q : List Entry} {lb : ℕ}
    (hlb : ∀ x ∈ q, lb ≤ x.1) (he : lb ≤ e.1) :
    ∀ x ∈ pushSuccs grid e q, lb ≤ x.1 := by
  intro x hx
  rcases pushSuccs_mem hx with h | h | ⟨t, -, h⟩ | h
  · rw [h]; show lb ≤ e.1 + 1000; omega
  · rw [h]; show lb ≤ e.1 + 1000; omega
  · rw [h]; show lb ≤ e.1 + 1; omega
  · exact hlb x h

/-- Popped costs never drop below a lower bound on the queue: pushes only
ever add entries at least as expensive as the entry just popped. -/
theorem trace_cost_lb (grid : List (List Char)) (endp : ℕ × ℕ) :
    ∀ (fuel : ℕ) (q : List Entry) (visited : List St) (lb : ℕ),
      (∀ e ∈ q, lb ≤ e.1) →
      ∀ x ∈ reindeerMazeTrace grid endp fuel q visited, lb ≤ x.1.1 := by
  intro fuel
  induction fuel with
  | zero =>
    intro q visited lb _ x hx
    simp [reindeerMazeTrace] at hx
  | succ fuel ih =>
    intro q visited lb hlb x hx
    rw [reindeerMazeTrace_succ] at hx
    cases hpop : popMin q with
    | none => rw [hpop] at hx; simp at hx
    | some pr =>
      obtain ⟨e, q'⟩ := pr
      rw [hpop] at hx
      dsimp only at hx
      obtain ⟨hmem, hminle, -, -, hsub⟩ := popMin_spec hpop
      have hle : lb ≤ e.1 := hlb e hmem
      have hlb' : ∀ x ∈ q', lb ≤ x.1 := fun x hx2 => hlb x (hsub x hx2)
      by_cases hend : ((e.2.1, e.2.2.1) : ℕ × ℕ) = endp
      · rw [if_pos hend] at hx
        obtain rfl : x = (e, false) := by simpa using hx
        exact hle
      · rw [if_neg hend] at hx
        by_cases hvis : e.2 ∈ visited
        · rw [if_pos hvis] at hx
          rcases List.mem_cons.mp hx with rfl | hx2
          · exact hle
          · exact ih q' visited lb hlb' x hx2
        · rw [if_neg hvis] at hx
          rcases List.mem_cons.mp hx with rfl | hx2
          · exact hle
          · exact ih (pushSuccs grid e q') (e.2 :: visited) lb
              (pushSuccs_lb hlb' hle) x hx2

/-- A state currently in the visited set is never expanded later. -/
theorem trace_visited_flag (grid : List (List Char)) (endp : ℕ × ℕ) :
    ∀ (fuel : ℕ) (q : List Entry) (visited : List St) (s : St), s ∈ visited →
      ∀ x ∈ reindeerMazeTrace grid endp fuel q visited, x.1.2 = s → x.2 = false := by
  intro fuel
  induction fuel with
  | zero =>
    intro q visited s _ x hx
    simp [reindeerMazeTrace] at hx
  | succ fuel ih =>
    intro q visited s hsvis x hx hxs
    rw [reindeerMazeTrace_succ] at hx
    cases hpop : popMin q with
    | none => rw [hpop] at hx; simp at hx
    | some pr =>
      obtain ⟨e, q'⟩ := pr
      rw [hpop] at hx
      dsimp only at hx
      by_cases hend : ((e.2.1, e.2.2.1) : ℕ × ℕ) = endp
      · rw [if_pos hend] at hx
        obtain rfl : x = (e, false) := by simpa using hx
        rfl
      · rw [if_neg hend] at hx
        by_cases hvis : e.2 ∈ visited
        · rw [if_pos hvis] at hx
          rcases List.mem_cons.mp hx with rfl | hx2
          · rfl
          · exact ih q' visited s hsvis x hx2 hxs
        · rw [if_neg hvis] at hx
          rcases List.mem_cons.mp hx with rfl | hx2
          · exact absurd (hxs ▸ hsvis) hvis
          · exact ih (pushSuccs grid e q') (e.2 :: visited) s
              (List.mem_cons_of_mem _ hsvis) x hx2 hxs

theorem trace_pairwise (grid : List (List Char)) (endp : ℕ × ℕ) :
    ∀ (fuel : ℕ) (q : List Entry) (visited : List St),
      (reindeerMazeTrace grid endp fuel q visited).Pairwise
        (fun a b => a.2 = true → a.1.2 = b.1.2 → b.2 = false ∧ a.1.1 ≤ b.1.1) := by
  intro fuel
  induction fuel with
  | zero =>
    intro q visited
    simp [reindeerMazeTrace]
  | succ fuel ih =>
    intro q visited
    rw [reindeerMazeTrace_succ]
    cases hpop : popMin q with
    | none => simp
    | some pr =>
      obtain ⟨e, q'⟩ := pr
      dsimp only
      obtain ⟨hmem, hminle, -, -, hsub⟩ := popMin_spec hpop
      have hq'lb : ∀ x ∈ q', e.1 ≤ x.1 :=
        fun x hx => entryLe_cost (hminle x (hsub x hx))
      by_cases hend : ((e.2.1, e.2.2.1) : ℕ × ℕ) = endp
      · rw [if_pos hend]
        simp
      · rw [if_neg hend]
        by_cases hvis : e.2 ∈ visited
        · rw [if_pos hvis]
          refine List.Pairwise.cons ?_ (ih q' visited)
          intro y hy hflag
          simp at hflag
        · rw [if_neg hvis]
          refine List.Pairwise.cons ?_ (ih (pushSuccs grid e q') (e.2 :: visited))
          intro y hy _ hys
          constructor
          · exact trace_visited_flag grid endp fuel (pushSuccs grid e q')
              (e.2 :: visited) e.2 (List.mem_cons_self _ _) y hy hys.symm
          · exact trace_cost_lb grid endp fuel (pushSuccs grid e q')
              (e.2 :: visited) e.1 (pushSuccs_lb hq'lb (le_refl e.1)) y hy

/-- Claim C4: in every execution of `reindeer_maze` — including a run on a
ragged grid that aborts with `IndexError`, whose performed pops are the
error-faithful trace — once a `(position, facing)` pair has been expanded
(added to the visited set), no later iteration expands that pair again,
and every later pop of that pair from the priority queue carries a
cumulative cost at least the cost at which it was first expanded. -/
theorem reindeer_maze_no_reexpansion (grid : List (List Char)) (start endp : ℕ × ℕ) :
    (mazeTraceE grid start endp).Pairwise
      (fun a b => a.2 = true → a.1.2 = b.1.2 → b.2 = false ∧ a.1.1 ≤ b.1.1) :=
  List.Pairwise.sublist
    (traceE_sublist grid endp (mazeFuel grid) [(0, start.1, start.2, 0)] [])
    (trace_pairwise grid endp (mazeFuel grid) [(0, start.1, start.2, 0)] [])

end Day16

namespace Day16Part2

/-- An exact priority value `k + sqrt d` with `k` integral and radicand
`d` a natural number: the priorities of `reindeer_maze_part2` are
`cost + estimate_cost(p)`, which is an integer plus the Euclidean distance
`abs(p - end)`, so every priority has this form. -/
abbrev Prio := ℤ × ℕ

/-- Exact strict comparison `x.1 + sqrt x.2 < y.1 + sqrt y.2`, decided by
squaring; this is the order `Node.__lt__` compares priorities with. -/
def prioLt (x y : Prio) : Bool :=
  let k := y.1 - x.1
  if 0 ≤ k then
    let d : ℤ := (x.2 : ℤ) - k ^ 2 - (y.2 : ℤ)
    if d < 0 then true else decide (d ^ 2 < 4 * k ^ 2 * (y.2 : ℤ))
  else
    let u : ℤ := (y.2 : ℤ) - (x.2 : ℤ) - k ^ 2
    if u ≤ 0 then false else decide (4 * k ^ 2 * (x.2 : ℤ) < u ^ 2)

/-- The `Node(priority, cost, p, v, tiles)` namedtuple of
`reindeer_maze_part2`, generic in the coordinate representation (the
source uses complex numbers; the C9 variant uses integer pairs). -/
structure Node (α : Type) where
  priority : Prio
  cost : ℕ
  p : α
  v : α
  tiles : List α
  deriving DecidableEq

/-- The least node of a nonempty queue by priority (ties keep the earliest,
one fixed resolution of the tie order `PriorityQueue` leaves unspecified). -/
def nmin {α : Type} (h : Node α) (t : List (Node α)) : Node α :=
  t.foldl (fun m e => if prioLt e.priority m.priority then e else m) h

/-- `q.get_nowait()` on the `PriorityQueue`: remove a least-priority node. -/
def popNode {α : Type} [DecidableEq α] : List (Node α) → Option (Node α × List (Node α))
  | [] => none
  | h :: t => some (nmin h t, (h :: t).erase (nmin h t))

/-- `strict_visited.get((p, v), inf)`, as an association-list dictionary. -/
def svGet {α : Type} [DecidableEq α] (sv : List ((α × α) × ℕ)) (k : α × α) : Option ℕ :=
  (sv.find? (fun x => x.1 = k)).map (fun x => x.2)

/-- `strict_visited[(p, v)] = min(strict_visited.get((p, v), inf), cost)`. -/
def svUpdate {α : Type} [DecidableEq α] (sv : List ((α × α) × ℕ)) (k : α × α) (c : ℕ) :
    List ((α × α) × ℕ) :=
  match svGet sv k with
  | none => (k, c) :: sv
  | some old => (k, min old c) :: sv

/-- `strict_visited.get((p, v), inf) >= ncost` (`inf` is above every cost). -/
def svGe {α : Type} [DecidableEq α] (sv : List ((α × α) × ℕ)) (k : α × α) (c : ℕ) : Bool :=
  match svGet sv k with
  | none => true
  | some v => c ≤ v

/-- `md >= state.cost` where `md` may still be `inf` (`none`). -/
def mdGe (md : Option ℕ) (c : ℕ) : Bool :=
  match md with
  | none => true
  | some m => c ≤ m

/-- `min(md, state.cost)` with `md` possibly `inf`. -/
def mdMin (md : Option ℕ) (c : ℕ) : ℕ :=
  match md with
  | none => c
  | some m => min m c

/-- `state.tiles | {newp}` on duplicate-free tile lists. -/
def tinsert {α : Type} [DecidableEq α] (tiles : List α) (p : α) : List α :=
  if p ∈ tiles then tiles else tiles ++ [p]

/-- The final `tiles.update(*...)` / `len(tiles)` of `reindeer_maze_part2`:
the number of distinct tiles over all best nodes whose cost equals `md`. -/
def tilesUnion {α : Type} [DecidableEq α] (best : List (Node α)) (md : Option ℕ) : ℕ :=
  ((best.filter (fun n => md = some n.cost)).foldl
    (fun acc n => acc ++ n.tiles.filter (fun t => t ∉ acc)) []).length

/-- The mutable state of the `while not q.empty()` loop. -/
structure P2State (α : Type) where
  q : List (Node α)
  sv : List ((α × α) × ℕ)
  md : Option ℕ
  best : List (Node α)

/-- A rotation push of `reindeer_maze_part2`: when the checked cell `c`
(in the rotated direction) is not a wall and the strict-visited bound
allows it, enqueue the rotated node at cost `1000 + cost` (the source
writes `1000 + state.cost if r != 1 else state.cost`, and `r` ranges over
`1j`/`-1j`, never `1`, so the `else` branch is dead) with priority
`ncost + estimate_cost(newp)` and unchanged tiles. -/
def rotPush {α : Type} [DecidableEq α] (est : α → Prio) (sv : List ((α × α) × ℕ))
    (nd : Node α) (newv : α) (c : Char) (q : List (Node α)) : List (Node α) :=
  if c ≠ '#' then
    (if svGe sv (nd.p, newv) (1000 + nd.cost) then
      q ++ [⟨(1000 + nd.cost + (est nd.p).1, (est nd.p).2), 1000 + nd.cost,
        nd.p, newv, nd.tiles⟩]
    else q)
  else q

/-- The forward push: when the cell ahead is not a wall and the
strict-visited bound allows it, enqueue the moved node at cost `cost + 1`
with the new position added to its tiles. -/
def fwdPush {α : Type} [DecidableEq α] (est : α → Prio) (sv : List ((α × α) × ℕ))
    (nd : Node α) (newp : α) (c : Char) (q : List (Node α)) : List (Node α) :=
  if c ≠ '#' ∧ svGe sv (newp, nd.v) (nd.cost + 1) then
    q ++ [⟨(nd.cost + 1 + (est newp).1, (est newp).2), nd.cost + 1, newp, nd.v,
      tinsert nd.tiles newp⟩]
  else q

/-- The end-of-iteration bookkeeping: when the popped node sits on `E` and
its cost does not exceed `md`, lower `md` and append the node to `best`. -/
def finishNode {α : Type} (st : P2State α) (sv1 : List ((α × α) × ℕ))
    (q3 : List (Node α)) (nd : Node α) (c4 : Char) : P2State α :=
  if c4 = 'E' ∧ mdGe st.md nd.cost then
    ⟨q3, sv1, some (mdMin st.md nd.cost), st.best ++ [nd]⟩
  else ⟨q3, sv1, st.md, st.best⟩

/-- The `while not q.empty()` loop of `reindeer_maze_part2`, generic in the
coordinate type: `add` is coordinate addition, `mulI`/`mulNegI` are the
rotations `* 1j` and `* -1j`, `getc` is `getch` (`none` on an
out-of-bounds or negative index, modelling the raised `IndexError` and
flagging Python's silent negative-index wrap-around), `est` is
`estimate_cost`.  `.error ()` propagates a failed board access, `.ok none`
means the fuel ran out, `.ok (some n)` is the returned tile count. -/
def p2Run {α : Type} [DecidableEq α]
    (getc : α → Option Char) (add : α → α → α) (mulI : α → α) (mulNegI : α → α)
    (est : α → Prio) : ℕ → P2State α → Except Unit (Option ℕ)
  | 0, _ => .ok none
  | fuel + 1, st =>
    match popNode st.q with
    | none => .ok (some (tilesUnion st.best st.md))
    | some (nd, q0) =>
      let sv1 := svUpdate st.sv (nd.p, nd.v) nd.cost
      match getc (add nd.p (mulI nd.v)) with
      | none => .error ()
      | some c1 =>
        let q1 := rotPush est sv1 nd (mulI nd.v) c1 q0
        match getc (add nd.p (mulNegI nd.v)) with
        | none => .error ()
        | some c2 =>
          let q2 := rotPush est sv1 nd (mulNegI nd.v) c2 q1
          match getc (add nd.p nd.v) with
          | none => .error ()
          | some c3 =>
            let q3 := fwdPush est sv1 nd (add nd.p nd.v) c3 q2
            match getc nd.p with
            | none => .error ()
            | some c4 =>
              p2Run getc add mulI mulNegI est fuel (finishNode st sv1 q3 nd c4)

end Day16Part2

namespace Day16Part2

/-- Integer-valued complex numbers: the coordinate encoding of
`reindeer_maze_part2` (`complex(x, y)` with `x`, `y` integers throughout,
`* 1j` and `* -1j` as the two quarter rotations). -/
abbrev GInt := GaussianInt

/-- `row.strip()` on a row of characters. -/
def stripRow (row : List Char) : List Char :=
  ((row.dropWhile (fun ch => ch.isWhitespace)).reverse.dropWhile
    (fun ch => ch.isWhitespace)).reverse

/-- `getch`: the board access `board[int(c.imag)][int(c.real)]`.  `none`
models the `IndexError` on an index at or past the end of the list and
also flags a negative index (which Python would silently wrap around);
claim C8 asserts neither ever happens. -/
def getch (board : List (List Char)) (c : GInt) : Option Char :=
  if 0 ≤ c.im ∧ 0 ≤ c.re then
    (board.get? c.im.toNat).bind fun row => row.get? c.re.toNat
  else none

/-- `estimate_cost(p)` as an exact priority value: the integer part
collects `100 * manhattan + 1500 * (imag differs) + 1500 * (real differs)
+ abs(p.real)`, the radicand is `abs(p - end) ^ 2`. -/
def estimate_cost (endp p : GInt) : Prio :=
  (100 * (|p.re - endp.re| + |p.im - endp.im|) +
      (if endp.im ≠ p.im then 1500 else 0) + (if endp.re ≠ p.re then 1500 else 0) +
      |p.re|,
    ((p.re - endp.re) ^ 2 + (p.im - endp.im) ^ 2).toNat)

/-- The scan `for y, row in enumerate(board): for x, ch in enumerate(row)`
that locates a marker character, keeping the last occurrence, built with a
coordinate constructor `mk x y` (`complex(x, y)` in the source). -/
def findCell {α : Type} (mk : ℕ → ℕ → α) (board : List (List Char)) (target : Char) :
    Option α :=
  (List.range board.length).foldl (fun acc y =>
    (List.range ((board.getD y []).length)).foldl (fun acc2 x =>
      if (board.getD y []).getD x ' ' = target then some (mk x y) else acc2) acc) none

def mkC (x y : ℕ) : GInt := ⟨(x : ℤ), (y : ℤ)⟩

/-- Embeds `reindeer_maze_part2` from day16.py over Gaussian-integer
coordinates, with explicit fuel for the search loop.  A missing `S` or `E`
marker is an error (the source would crash using `None`). -/
def reindeer_maze_part2 (grid : List (List Char)) (fuel : ℕ) : Except Unit (Option ℕ) :=
  let board := grid.map stripRow
  match findCell mkC board 'S', findCell mkC board 'E' with
  | some start, some endp =>
    p2Run (getch board) (fun a b => a + b) (fun a => a * ⟨0, 1⟩) (fun a => a * ⟨0, -1⟩)
      (estimate_cost endp) fuel
      ⟨[⟨estimate_cost endp start, 0, start, ⟨1, 0⟩, [start]⟩], [], none, []⟩
  | _, _ => .error ()

end Day16Part2

namespace Day16Part2

/-- A maze whose start cell sits in a dead end facing a wall, with walls on
both sides: the failing input for claim C2. -/
def failGrid : List (List Char) :=
  [['#', '#', '#', '#', '#', '#'],
   ['#', 'E', '.', '.', 'S', '#'],
   ['#', '#', '#', '#', '#', '#']]

/-- Claim C2 (code-bug evidence): on `failGrid` the end cell is reachable
(rotate twice, then walk three cells west, total cost 2003, which part 1's
`reindeer_maze` also finds), so the minimum-cost path covers four distinct
cells; but `reindeer_maze_part2` returns 0, because `make_rotations` only
yields a rotation when the cell in the rotated direction is not a wall, so
the start state in the dead end can neither move nor turn and the search
dies immediately. -/
theorem reindeer_maze_part2_dead_end_bug :
    reindeer_maze_part2 failGrid 2 = .ok (some 0) ∧
      Day16.reindeer_maze failGrid (1, 4) (1, 1) = some 2003 ∧
      2003 ∈ Day16.EndCosts failGrid (1, 4, 0) (1, 1) := by
  refine ⟨rfl, rfl, ⟨2, ?_⟩⟩
  have h1 : Day16.Reach failGrid (1, 4, 0) (1, 4, 1) (0 + 1000) :=
    Day16.Reach.step Day16.Reach.init (Day16.Edge.rot (1, 4, 0) 1 (Or.inr rfl))
  have h2 : Day16.Reach failGrid (1, 4, 0) (1, 4, 2) (0 + 1000 + 1000) :=
    Day16.Reach.step h1 (Day16.Edge.rot (1, 4, 1) 1 (Or.inr rfl))
  have h3 : Day16.Reach failGrid (1, 4, 0) (1, 3, 2) (0 + 1000 + 1000 + 1) :=
    Day16.Reach.step h2 (Day16.Edge.fwd (by decide))
  have h4 : Day16.Reach failGrid (1, 4, 0) (1, 2, 2) (0 + 1000 + 1000 + 1 + 1) :=
    Day16.Reach.step h3 (Day16.Edge.fwd (by decide))
  exact Day16.Reach.step h4 (Day16.Edge.fwd (by decide))

end Day16Part2


namespace Day16Part2

theorem nmin_mem {α : Type} (h : Node α) (t : List (Node α)) : nmin h t ∈ h :: t := by
  induction t generalizing h with
  | nil => simp [nmin]
  | cons e t ih =>
    have hfold : nmin h (e :: t) = nmin (if prioLt e.priority h.priority then e else h) t :=
      rfl
    rw [hfold]
    rcases List.mem_cons.mp (ih (if prioLt e.priority h.priority then e else h)) with h1 | h1
    · rw [h1]
      split_ifs <;> simp
    · simp [h1]

theorem popNode_none {α : Type} [DecidableEq α] {q : List (Node α)} :
    popNode q = none ↔ q = [] := by
  cases q <;> simp [popNode]

theorem popNode_spec {α : Type} [DecidableEq α] {q : List (Node α)} {m : Node α}
    {q' : List (Node α)} (h : popNode q = some (m, q')) :
    m ∈ q ∧ ∀ e ∈ q', e ∈ q := by
  cases q with
  | nil => simp [popNode] at h
  | cons a t =>
    rw [popNode] at h
    have hinj := Option.some_injective _ h
    obtain ⟨h1, h2⟩ : nmin a t = m ∧ (a :: t).erase (nmin a t) = q' :=
      ⟨congrArg Prod.fst hinj, congrArg Prod.snd hinj⟩
    subst h1
    subst h2
    exact ⟨nmin_mem a t, fun e he => List.mem_of_mem_erase he⟩

theorem get?_some_getD {β : Type} {l : List β} {n : ℕ} {a : β} (d : β)
    (h : l.get? n = some a) : n < l.length ∧ l.getD n d = a := by
  obtain ⟨hlt, hget⟩ := List.get?_eq_some.mp h
  refine ⟨hlt, ?_⟩
  rw [List.getD_eq_getElem?_getD, ← List.get?_eq_getElem?, h]
  rfl

theorem getD_some_get? {β : Type} {l : List β} {n : ℕ} {a : β} (d : β)
    (hlt : n < l.length) (hgd : l.getD n d = a) : l.get? n = some a := by
  rw [List.get?_eq_getElem?, List.getElem?_eq_getElem hlt]
  rw [List.getD_eq_getElem l d hlt] at hgd
  rw [hgd]

theorem getch_some_iff (board : List (List Char)) (c : GInt) (ch : Char) :
    getch board c = some ch ↔
      0 ≤ c.im ∧ 0 ≤ c.re ∧ c.im.toNat < board.length ∧
        c.re.toNat < (board.getD c.im.toNat []).length ∧
        (board.getD c.im.toNat []).getD c.re.toNat ' ' = ch := by
  unfold getch
  split_ifs with hnn
  · constructor
    · intro h
      obtain ⟨row, hrow, hch⟩ := Option.bind_eq_some.mp h
      obtain ⟨hy, hrowd⟩ := get?_some_getD ([] : List Char) hrow
      obtain ⟨hx, hchd⟩ := get?_some_getD ' ' hch
      rw [← hrowd] at hx hchd
      exact ⟨hnn.1, hnn.2, hy, hx, hchd⟩
    · rintro ⟨-, -, hy, hx, hch⟩
      rw [Option.bind_eq_some]
      exact ⟨board.getD c.im.toNat [],
        getD_some_get? [] hy rfl, getD_some_get? ' ' hx hch⟩
  · constructor
    · intro h
      exact h.elim
    · rintro ⟨him, hre, -⟩
      exact absurd ⟨him, hre⟩ hnn

/-- The unit direction vectors; `v` starts at `1` and is only ever
multiplied by `1j` or `-1j`. -/
def unitVec (v : GInt) : Prop :=
  v = ⟨1, 0⟩ ∨ v = ⟨-1, 0⟩ ∨ v = ⟨0, 1⟩ ∨ v = ⟨0, -1⟩

theorem unitVec_mulI {v : GInt} (h : unitVec v) : unitVec (v * ⟨0, 1⟩) := by
  rcases h with rfl | rfl | rfl | rfl
  · right; right; left; decide
  · right; right; right; decide
  · right; left; decide
  · left; decide

theorem unitVec_mulNegI {v : GInt} (h : unitVec v) : unitVec (v * ⟨0, -1⟩) := by
  rcases h with rfl | rfl | rfl | rfl
  · right; right; right; decide
  · right; right; left; decide
  · left; decide
  · right; left; decide

/-- A queue node is safe: its position holds a readable non-wall cell and
its direction is a unit vector. -/
def okNode (board : List (List Char)) (n : Node GInt) : Prop :=
  (∃ ch, getch board n.p = some ch ∧ ch ≠ '#') ∧ unitVec n.v

/-- All boundary cells of the (rectangular) board are walls. -/
def BoundaryWalls (board : List (List Char)) : Prop :=
  ∀ y, y < board.length → ∀ x, x < (board.getD y []).length →
    (x = 0 ∨ x + 1 = (board.headD []).length ∨ y = 0 ∨ y + 1 = board.length) →
    (board.getD y []).getD x ' ' = '#'

/-- Rectangularity: every row has the length of the first one (`mx`). -/
def RectBoard (board : List (List Char)) : Prop :=
  ∀ row ∈ board, row.length = (board.headD []).length

theorem rect_row_length {board : List (List Char)} (hrect : RectBoard board)
    {y : ℕ} (hy : y < board.length) :
    (board.getD y []).length = (board.headD []).length := by
  apply hrect
  rw [List.getD_eq_getElem board [] hy]
  exact board.getElem_mem hy

/-- On a rectangular board with wall boundaries, every neighbour (by a unit
step) of a readable non-wall cell is readable. -/
theorem interior_access {board : List (List Char)} (hrect : RectBoard board)
    (hbound : BoundaryWalls board) {p : GInt} {ch : Char}
    (hp : getch board p = some ch) (hw : ch ≠ '#') {u : GInt} (hu : unitVec u) :
    ∃ ch2, getch board (p + u) = some ch2 := by
  obtain ⟨him, hre, hy, hx, hch⟩ := (getch_some_iff board p ch).mp hp
  have hrowlen : (board.getD p.im.toNat []).length = (board.headD []).length :=
    rect_row_length hrect hy
  -- the cell is interior: otherwise the boundary hypothesis makes it a wall
  have hint : ¬ (p.re.toNat = 0 ∨ p.re.toNat + 1 = (board.headD []).length ∨
      p.im.toNat = 0 ∨ p.im.toNat + 1 = board.length) := by
    intro hcase
    exact hw (hch ▸ (hbound p.im.toNat hy p.re.toNat hx hcase) ▸ rfl)
  push_neg at hint
  obtain ⟨hx0, hx1, hy0, hy1⟩ := hint
  have hxlt : p.re.toNat < (board.headD []).length := by rw [← hrowlen]; exact hx
  -- coordinates of the neighbour
  have hure : u.re = 1 ∨ u.re = 0 ∨ u.re = -1 := by
    rcases hu with rfl | rfl | rfl | rfl <;> simp
  have huim : u.im = 1 ∨ u.im = 0 ∨ u.im = -1 := by
    rcases hu with rfl | rfl | rfl | rfl <;> simp
  have hre2 : (p + u).re = p.re + u.re := Zsqrtd.add_re p u
  have him2 : (p + u).im = p.im + u.im := Zsqrtd.add_im p u
  have him2nn : 0 ≤ (p + u).im := by omega
  have hre2nn : 0 ≤ (p + u).re := by omega
  have hy2 : (p + u).im.toNat < board.length := by omega
  have hrowlen2 : (board.getD (p + u).im.toNat []).length = (board.headD []).length :=
    rect_row_length hrect hy2
  have hx2 : (p + u).re.toNat < (board.getD (p + u).im.toNat []).length := by
    rw [hrowlen2]
    omega
  exact ⟨_, (getch_some_iff board (p + u) _).mpr ⟨him2nn, hre2nn, hy2, hx2, rfl⟩⟩

end Day16Part2

namespace Day16Part2

theorem p2Run_succ {α : Type} [DecidableEq α]
    (getc : α → Option Char) (add : α → α → α) (mulI : α → α) (mulNegI : α → α)
    (est : α → Prio) (fuel : ℕ) (st : P2State α) :
    p2Run getc add mulI mulNegI est (fuel + 1) st =
      match popNode st.q with
      | none => .ok (some (tilesUnion st.best st.md))
      | some (nd, q0) =>
        match getc (add nd.p (mulI nd.v)) with
        | none => .error ()
        | some c1 =>
          match getc (add nd.p (mulNegI nd.v)) with
          | none => .error ()
          | some c2 =>
            match getc (add nd.p nd.v) with
            | none => .error ()
            | some c3 =>
              match getc nd.p with
              | none => .error ()
              | some c4 =>
                p2Run getc add mulI mulNegI est fuel
                  (finishNode st (svUpdate st.sv (nd.p, nd.v) nd.cost)
                    (fwdPush est (svUpdate st.sv (nd.p, nd.v) nd.cost) nd (add nd.p nd.v) c3
                      (rotPush est (svUpdate st.sv (nd.p, nd.v) nd.cost) nd (mulNegI nd.v) c2
                        (rotPush est (svUpdate st.sv (nd.p, nd.v) nd.cost) nd (mulI nd.v) c1
                          q0)))
                    nd c4) := rfl

theorem rotPush_mem {α : Type} [DecidableEq α] {est : α → Prio}
    {sv : List ((α × α) × ℕ)} {nd : Node α} {newv : α} {c : Char}
    {q : List (Node α)} {x : Node α} (hx : x ∈ rotPush est sv nd newv c q) :
    x ∈ q ∨ x = ⟨(1000 + nd.cost + (est nd.p).1, (est nd.p).2), 1000 + nd.cost,
      nd.p, newv, nd.tiles⟩ := by
  unfold rotPush at hx
  split_ifs at hx
  · rcases List.mem_append.mp hx with h | h
    · exact Or.inl h
    · exact Or.inr (List.mem_singleton.mp h)
  · exact Or.inl hx
  · exact Or.inl hx

theorem fwdPush_mem {α : Type} [DecidableEq α] {est : α → Prio}
    {sv : List ((α × α) × ℕ)} {nd : Node α} {newp : α} {c : Char}
    {q : List (Node α)} {x : Node α} (hx : x ∈ fwdPush est sv nd newp c q) :
    x ∈ q ∨ (c ≠ '#' ∧ x = ⟨(nd.cost + 1 + (est newp).1, (est newp).2), nd.cost + 1,
      newp, nd.v, tinsert nd.tiles newp⟩) := by
  unfold fwdPush at hx
  split_ifs at hx with hcond
  · rcases List.mem_append.mp hx with h | h
    · exact Or.inl h
    · exact Or.inr ⟨hcond.1, List.mem_singleton.mp h⟩
  · exact Or.inl hx

theorem finishNode_q {α : Type} (st : P2State α) (sv1 : List ((α × α) × ℕ))
    (q3 : List (Node α)) (nd : Node α) (c4 : Char) :
    (finishNode st sv1 q3 nd c4).q = q3 := by
  unfold finishNode
  split_ifs <;> rfl

/-- C8 invariant preservation: the loop of `reindeer_maze_part2` never
performs an out-of-range (or negative) board access when the board is
rectangular with wall boundaries and every queued node is safe. -/
theorem p2Run_no_error (board : List (List Char)) (endp : GInt)
    (hrect : RectBoard board) (hbound : BoundaryWalls board) :
    ∀ (fuel : ℕ) (st : P2State GInt), (∀ n ∈ st.q, okNode board n) →
      p2Run (getch board) (fun a b => a + b) (fun a => a * ⟨0, 1⟩)
        (fun a => a * ⟨0, -1⟩) (estimate_cost endp) fuel st ≠ .error () := by
  intro fuel
  induction fuel with
  | zero =>
    intro st _ h
    exact Except.noConfusion h
  | succ fuel ih =>
    intro st hq
    rw [p2Run_succ]
    cases hpop : popNode st.q with
    | none =>
      intro h
      exact Except.noConfusion h
    | some pr =>
      obtain ⟨nd, q0⟩ := pr
      dsimp only
      obtain ⟨hnd, hq0⟩ := popNode_spec hpop
      obtain ⟨⟨chp, hchp, hchw⟩, hvu⟩ := hq nd hnd
      obtain ⟨ch1, hch1⟩ := interior_access hrect hbound hchp hchw (unitVec_mulI hvu)
      rw [hch1]
      dsimp only
      obtain ⟨ch2, hch2⟩ := interior_access hrect hbound hchp hchw (unitVec_mulNegI hvu)
      rw [hch2]
      dsimp only
      obtain ⟨ch3, hch3⟩ := interior_access hrect hbound hchp hchw hvu
      rw [hch3]
      dsimp only
      rw [hchp]
      dsimp only
      apply ih
      rw [finishNode_q]
      intro n hn
      rcases fwdPush_mem hn with hn2 | ⟨hcw, rfl⟩
      · rcases rotPush_mem hn2 with hn3 | rfl
        · rcases rotPush_mem hn3 with hn4 | rfl
          · exact hq n (hq0 n hn4)
          · exact ⟨⟨chp, hchp, hchw⟩, unitVec_mulI hvu⟩
        · exact ⟨⟨chp, hchp, hchw⟩, unitVec_mulNegI hvu⟩
      · exact ⟨⟨ch3, hch3, hcw⟩, hvu⟩

end Day16Part2

namespace Day16Part2

theorem foldl_pres {α β : Type} (P : β → Prop) (f : β → α → β) :
    ∀ (l : List α) (b : β), P b → (∀ b a, a ∈ l → P b → P (f b a)) → P (l.foldl f b) := by
  intro l
  induction l with
  | nil =>
    intro b hb _
    exact hb
  | cons a t ih =>
    intro b hb hstep
    exact ih (f b a) (hstep b a (List.mem_cons_self a t) hb)
      (fun b2 x hx hb2 => hstep b2 x (List.mem_cons_of_mem a hx) hb2)

theorem findCell_some {α : Type} (mk : ℕ → ℕ → α) (board : List (List Char))
    (target : Char) {a : α} (h : findCell mk board target = some a) :
    ∃ x y, y < board.length ∧ x < (board.getD y []).length ∧
      (board.getD y []).getD x ' ' = target ∧ a = mk x y := by
  unfold findCell at h
  revert h
  refine foldl_pres (fun acc : Option α => acc = some a →
      ∃ x y, y < board.length ∧ x < (board.getD y []).length ∧
        (board.getD y []).getD x ' ' = target ∧ a = mk x y) _ _ _ ?_ ?_
  · intro hb
    exact absurd hb (by simp)
  · intro acc y hy hacc
    refine foldl_pres (fun acc2 : Option α => acc2 = some a →
        ∃ x y, y < board.length ∧ x < (board.getD y []).length ∧
          (board.getD y []).getD x ' ' = target ∧ a = mk x y) _ _ _ hacc ?_
    intro acc2 x hx hacc2 hb
    by_cases hc : (board.getD y []).getD x ' ' = target
    · rw [if_pos hc] at hb
      exact ⟨x, y, List.mem_range.mp hy, List.mem_range.mp hx, hc,
        (Option.some_injective _ hb).symm⟩
    · rw [if_neg hc] at hb
      exact hacc2 hb

/-- Claim C8: on a grid whose stripped board is rectangular with every
boundary cell a wall, and which contains an `S` cell and an `E` cell,
every board access `reindeer_maze_part2` performs through `getch` is in
bounds with nonnegative indices, so the embedded out-of-bounds error
branch (`.error ()`) is unreachable for every fuel. -/
theorem reindeer_maze_part2_no_oob (grid : List (List Char)) (start endp : GInt)
    (hrect : RectBoard (grid.map stripRow))
    (hbound : BoundaryWalls (grid.map stripRow))
    (hS : findCell mkC (grid.map stripRow) 'S' = some start)
    (hE : findCell mkC (grid.map stripRow) 'E' = some endp) :
    ∀ fuel, reindeer_maze_part2 grid fuel ≠ .error () := by
  intro fuel
  have hok : ∀ n ∈ ([⟨estimate_cost endp start, 0, start, ⟨1, 0⟩, [start]⟩] :
      List (Node GInt)), okNode (grid.map stripRow) n := by
    intro n hn
    rw [List.mem_singleton] at hn
    subst hn
    obtain ⟨x, y, hy, hx, hc, hmk⟩ := findCell_some mkC (grid.map stripRow) 'S' hS
    subst hmk
    refine ⟨⟨'S', (getch_some_iff (grid.map stripRow) (mkC x y) 'S').mpr
      ⟨?_, ?_, ?_, ?_, ?_⟩, by decide⟩, Or.inl rfl⟩
    · simp [mkC]
    · simp [mkC]
    · simpa [mkC] using hy
    · simpa [mkC] using hx
    · simpa [mkC] using hc
  have hrun := p2Run_no_error (grid.map stripRow) endp hrect hbound fuel
    ⟨[⟨estimate_cost endp start, 0, start, ⟨1, 0⟩, [start]⟩], [], none, []⟩ hok
  simp only [reindeer_maze_part2]
  rw [hS, hE]
  exact hrun

/-- A small all-walled maze with interior `S` and `E` cells. -/
def wGrid : List (List Char) :=
  [['#', '#', '#'],
   ['#', 'S', '#'],
   ['#', 'E', '#'],
   ['#', '#', '#']]

theorem reindeer_maze_part2_no_oob_witness :
    RectBoard (wGrid.map stripRow) ∧ BoundaryWalls (wGrid.map stripRow) ∧
      findCell mkC (wGrid.map stripRow) 'S' = some (mkC 1 1) ∧
      findCell mkC (wGrid.map stripRow) 'E' = some (mkC 1 2) ∧
      reindeer_maze_part2 wGrid 9 ≠ .error () :=
  ⟨by unfold RectBoard; decide, by unfold BoundaryWalls; decide, by decide, by decide,
    reindeer_maze_part2_no_oob wGrid (mkC 1 1) (mkC 1 2) (by unfold RectBoard; decide)
      (by unfold BoundaryWalls; decide) (by decide) (by decide) 9⟩

end Day16Part2

namespace Day16Part2

/-- Explicit pair-of-integers 2D vectors: the re-expression of the
complex-number coordinate trick that claim C9 asks about. -/
abbrev Vec2 := ℤ × ℤ

/-- Componentwise vector addition. -/
def addV (a b : Vec2) : Vec2 := (a.1 + b.1, a.2 + b.2)

/-- The 90-degree rotation replacing multiplication by `1j`. -/
def rotL (a : Vec2) : Vec2 := (-a.2, a.1)

/-- The 90-degree rotation replacing multiplication by `-1j`. -/
def rotR (a : Vec2) : Vec2 := (a.2, -a.1)

/-- `getch` over pair coordinates (`c.2` is the row, `c.1` the column,
exactly as `int(c.imag)` / `int(c.real)`). -/
def getchV (board : List (List Char)) (c : Vec2) : Option Char :=
  if 0 ≤ c.2 ∧ 0 ≤ c.1 then
    (board.get? c.2.toNat).bind fun row => row.get? c.1.toNat
  else none

/-- `estimate_cost` over pair coordinates. -/
def estimate_costV (endp p : Vec2) : Prio :=
  (100 * (|p.1 - endp.1| + |p.2 - endp.2|) +
      (if endp.2 ≠ p.2 then 1500 else 0) + (if endp.1 ≠ p.1 then 1500 else 0) +
      |p.1|,
    ((p.1 - endp.1) ^ 2 + (p.2 - endp.2) ^ 2).toNat)

def mkV (x y : ℕ) : Vec2 := ((x : ℤ), (y : ℤ))

/-- The pair-coordinate variant of `reindeer_maze_part2`: every
`complex(x, y)` replaced by `(x, y)`, addition by `addV`, the `* 1j` and
`* -1j` rotations by `rotL` and `rotR`. -/
def reindeer_maze_part2_pair (grid : List (List Char)) (fuel : ℕ) :
    Except Unit (Option ℕ) :=
  let board := grid.map stripRow
  match findCell mkV board 'S', findCell mkV board 'E' with
  | some start, some endp =>
    p2Run (getchV board) addV rotL rotR (estimate_costV endp) fuel
      ⟨[⟨estimate_costV endp start, 0, start, (1, 0), [start]⟩], [], none, []⟩
  | _, _ => .error ()

/-- The coordinate interpretation `(x, y) -> complex(x, y)`. -/
def toG (v : Vec2) : GInt := ⟨v.1, v.2⟩

theorem toG_injective : Function.Injective toG := by
  intro a b h
  exact Prod.ext (congrArg Zsqrtd.re h) (congrArg Zsqrtd.im h)

theorem toG_add (a b : Vec2) : toG (addV a b) = toG a + toG b := by
  simp [toG, addV, Zsqrtd.ext_iff, Zsqrtd.add_re, Zsqrtd.add_im]

theorem toG_rotL (a : Vec2) : toG (rotL a) = toG a * ⟨0, 1⟩ := by
  simp [toG, rotL, Zsqrtd.ext_iff, Zsqrtd.mul_re, Zsqrtd.mul_im]

theorem toG_rotR (a : Vec2) : toG (rotR a) = toG a * ⟨0, -1⟩ := by
  simp [toG, rotR, Zsqrtd.ext_iff, Zsqrtd.mul_re, Zsqrtd.mul_im]

theorem toG_getch (board : List (List Char)) (p : Vec2) :
    getchV board p = getch board (toG p) := rfl

theorem toG_est (endp p : Vec2) :
    estimate_costV endp p = estimate_cost (toG endp) (toG p) := rfl

/-- Transport of a `strict_visited` entry along a coordinate map. -/
def mapEntry {α β : Type} (φ : α → β) (e : (α × α) × ℕ) : (β × β) × ℕ :=
  ((φ e.1.1, φ e.1.2), e.2)

/-- Transport of a queue node along a coordinate map. -/
def mapNode {α β : Type} (φ : α → β) (n : Node α) : Node β :=
  ⟨n.priority, n.cost, φ n.p, φ n.v, n.tiles.map φ⟩

/-- Transport of the whole loop state along a coordinate map. -/
def mapState {α β : Type} (φ : α → β) (st : P2State α) : P2State β :=
  ⟨st.q.map (mapNode φ), st.sv.map (mapEntry φ), st.md, st.best.map (mapNode φ)⟩

theorem mapNode_injective {α β : Type} (φ : α → β) (hφ : Function.Injective φ) :
    Function.Injective (mapNode φ) := by
  intro a b h
  cases a with
  | mk pr1 c1 p1 v1 tl1 =>
    cases b with
    | mk pr2 c2 p2 v2 tl2 =>
      simp only [mapNode, Node.mk.injEq] at h
      obtain ⟨h1, h2, h3, h4, h5⟩ := h
      simp only [Node.mk.injEq]
      exact ⟨h1, h2, hφ h3, hφ h4, List.map_injective_iff.mpr hφ h5⟩

theorem nmin_map {α β : Type} (φ : α → β) (h : Node α) (t : List (Node α)) :
    nmin (mapNode φ h) (t.map (mapNode φ)) = mapNode φ (nmin h t) := by
  induction t generalizing h with
  | nil => rfl
  | cons e t ih =>
    show nmin (if prioLt e.priority h.priority then mapNode φ e else mapNode φ h)
        (t.map (mapNode φ)) =
      mapNode φ (nmin (if prioLt e.priority h.priority then e else h) t)
    rw [← apply_ite (mapNode φ)]
    exact ih _

theorem popNode_map_some {α β : Type} [DecidableEq α] [DecidableEq β] (φ : α → β)
    (hφ : Function.Injective φ) {q : List (Node α)} {nd : Node α} {q0 : List (Node α)}
    (h : popNode q = some (nd, q0)) :
    popNode (q.map (mapNode φ)) = some (mapNode φ nd, q0.map (mapNode φ)) := by
  cases q with
  | nil => exact Option.noConfusion h
  | cons a t =>
    rw [popNode] at h
    have hinj := Option.some_injective _ h
    have h1 : nmin a t = nd := congrArg Prod.fst hinj
    have h2 : (a :: t).erase (nmin a t) = q0 := congrArg Prod.snd hinj
    rw [h1] at h2
    show some (nmin (mapNode φ a) (t.map (mapNode φ)),
        ((a :: t).map (mapNode φ)).erase (nmin (mapNode φ a) (t.map (mapNode φ)))) = _
    rw [nmin_map φ a t, h1, ← List.map_erase (mapNode_injective φ hφ), h2]

end Day16Part2

namespace Day16Part2

theorem svGet_map {α β : Type} [DecidableEq α] [DecidableEq β] (φ : α → β)
    (hφ : Function.Injective φ) (sv : List ((α × α) × ℕ)) (k1 k2 : α) :
    svGet (sv.map (mapEntry φ)) (φ k1, φ k2) = svGet sv (k1, k2) := by
  induction sv with
  | nil => rfl
  | cons e t ih =>
    obtain ⟨⟨e1, e2⟩, ec⟩ := e
    rw [List.map_cons]
    unfold svGet
    by_cases hek : e1 = k1 ∧ e2 = k2
    · obtain ⟨rfl, rfl⟩ := hek
      rw [List.find?_cons_of_pos _ (by simp [mapEntry]), List.find?_cons_of_pos _ (by simp)]
      rfl
    · have hu : ((e1, e2) : α × α) ≠ (k1, k2) := by
        intro hc
        injection hc with hc1 hc2
        exact hek ⟨hc1, hc2⟩
      have hm : ((φ e1, φ e2) : β × β) ≠ (φ k1, φ k2) := by
        intro hc
        injection hc with hc1 hc2
        exact hek ⟨hφ hc1, hφ hc2⟩
      rw [List.find?_cons_of_neg _ (by simpa [mapEntry] using hm),
        List.find?_cons_of_neg _ (by simpa using hu)]
      exact ih

theorem svUpdate_map {α β : Type} [DecidableEq α] [DecidableEq β] (φ : α → β)
    (hφ : Function.Injective φ) (sv : List ((α × α) × ℕ)) (k1 k2 : α) (c : ℕ) :
    svUpdate (sv.map (mapEntry φ)) (φ k1, φ k2) c =
      (svUpdate sv (k1, k2) c).map (mapEntry φ) := by
  unfold svUpdate
  rw [svGet_map φ hφ]
  cases svGet sv (k1, k2) <;> rfl

theorem svGe_map {α β : Type} [DecidableEq α] [DecidableEq β] (φ : α → β)
    (hφ : Function.Injective φ) (sv : List ((α × α) × ℕ)) (k1 k2 : α) (c : ℕ) :
    svGe (sv.map (mapEntry φ)) (φ k1, φ k2) c = svGe sv (k1, k2) c := by
  unfold svGe
  rw [svGet_map φ hφ]

theorem tinsert_map {α β : Type} [DecidableEq α] [DecidableEq β] (φ : α → β)
    (hφ : Function.Injective φ) (tiles : List α) (p : α) :
    tinsert (tiles.map φ) (φ p) = (tinsert tiles p).map φ := by
  unfold tinsert
  by_cases hp : p ∈ tiles
  · rw [if_pos (List.mem_map_of_mem φ hp), if_pos hp]
  · rw [if_neg (fun hc => hp ((List.mem_map_of_injective hφ).mp hc)), if_neg hp,
      List.map_append]
    rfl

theorem tilesUnion_map {α β : Type} [DecidableEq α] [DecidableEq β] (φ : α → β)
    (hφ : Function.Injective φ) (best : List (Node α)) (md : Option ℕ) :
    tilesUnion (best.map (mapNode φ)) md = tilesUnion best md := by
  unfold tilesUnion
  rw [List.filter_map]
  have hflt : best.filter ((fun n : Node β => decide (md = some n.cost)) ∘ mapNode φ) =
      best.filter (fun n => decide (md = some n.cost)) :=
    List.filter_congr (fun a _ => rfl)
  rw [hflt]
  have key : ∀ (l : List (Node α)) (acc : List α),
      (l.map (mapNode φ)).foldl
          (fun acc2 n => acc2 ++ n.tiles.filter (fun t => t ∉ acc2)) (acc.map φ) =
        (l.foldl (fun acc2 n => acc2 ++ n.tiles.filter (fun t => t ∉ acc2)) acc).map φ := by
    intro l
    induction l with
    | nil =>
      intro acc
      rfl
    | cons n t ih =>
      intro acc
      rw [List.map_cons, List.foldl_cons, List.foldl_cons]
      have hacc : (acc.map φ) ++ (mapNode φ n).tiles.filter (fun x => x ∉ acc.map φ) =
          (acc ++ n.tiles.filter (fun x => x ∉ acc)).map φ := by
        show (acc.map φ) ++ (n.tiles.map φ).filter (fun x => x ∉ acc.map φ) = _
        rw [List.map_append, List.filter_map]
        congr 1
        exact congrArg (List.map φ) (List.filter_congr (fun a _ =>
          decide_eq_decide.mpr (not_congr (List.mem_map_of_injective hφ))))
      rw [hacc]
      exact ih _
  have hkey := key (best.filter (fun n => decide (md = some n.cost))) []
  rw [List.map_nil] at hkey
  rw [hkey, List.length_map]

end Day16Part2

namespace Day16Part2

theorem rotPush_map {α β : Type} [DecidableEq α] [DecidableEq β] (φ : α → β)
    (hφ : Function.Injective φ) (estα : α → Prio) (estβ : β → Prio)
    (hest : ∀ p, estα p = estβ (φ p)) (sv : List ((α × α) × ℕ)) (nd : Node α)
    (newv : α) (c : Char) (q : List (Node α)) :
    rotPush estβ (sv.map (mapEntry φ)) (mapNode φ nd) (φ newv) c (q.map (mapNode φ)) =
      (rotPush estα sv nd newv c q).map (mapNode φ) := by
  unfold rotPush
  dsimp only [mapNode]
  rw [svGe_map φ hφ sv nd.p newv (1000 + nd.cost)]
  split_ifs with h1 h2
  · rw [List.map_append, hest nd.p]
    rfl
  · rfl
  · rfl

theorem fwdPush_map {α β : Type} [DecidableEq α] [DecidableEq β] (φ : α → β)
    (hφ : Function.Injective φ) (estα : α → Prio) (estβ : β → Prio)
    (hest : ∀ p, estα p = estβ (φ p)) (sv : List ((α × α) × ℕ)) (nd : Node α)
    (newp : α) (c : Char) (q : List (Node α)) :
    fwdPush estβ (sv.map (mapEntry φ)) (mapNode φ nd) (φ newp) c (q.map (mapNode φ)) =
      (fwdPush estα sv nd newp c q).map (mapNode φ) := by
  unfold fwdPush
  dsimp only [mapNode]
  rw [svGe_map φ hφ sv newp nd.v (nd.cost + 1)]
  split_ifs with h1
  · rw [List.map_append, hest newp, tinsert_map φ hφ nd.tiles newp]
    rfl
  · rfl

theorem finishNode_map {α β : Type} (φ : α → β) (st : P2State α)
    (sv : List ((α × α) × ℕ)) (q : List (Node α)) (nd : Node α) (c : Char) :
    finishNode (mapState φ st) (sv.map (mapEntry φ)) (q.map (mapNode φ))
        (mapNode φ nd) c =
      mapState φ (finishNode st sv q nd c) := by
  unfold finishNode
  dsimp only [mapState, mapNode]
  split_ifs with h
  · dsimp only
    rw [List.map_append]
    rfl
  · rfl

theorem p2Run_map {α β : Type} [DecidableEq α] [DecidableEq β] (φ : α → β)
    (hφ : Function.Injective φ)
    (getcα : α → Option Char) (addα : α → α → α) (mulIα mulNIα : α → α)
    (estα : α → Prio) (getcβ : β → Option Char) (addβ : β → β → β)
    (mulIβ mulNIβ : β → β) (estβ : β → Prio)
    (hget : ∀ p, getcα p = getcβ (φ p))
    (hadd : ∀ a b, φ (addα a b) = addβ (φ a) (φ b))
    (hI : ∀ a, φ (mulIα a) = mulIβ (φ a))
    (hNI : ∀ a, φ (mulNIα a) = mulNIβ (φ a))
    (hest : ∀ p, estα p = estβ (φ p)) :
    ∀ (fuel : ℕ) (st : P2State α),
      p2Run getcβ addβ mulIβ mulNIβ estβ fuel (mapState φ st) =
        p2Run getcα addα mulIα mulNIα estα fuel st := by
  intro fuel
  induction fuel with
  | zero =>
    intro st
    rfl
  | succ fuel ih =>
    intro st
    rw [p2Run_succ, p2Run_succ]
    cases hp : popNode st.q with
    | none =>
      have hpm : popNode (mapState φ st).q = none := by
        show popNode (st.q.map (mapNode φ)) = none
        rw [popNode_none] at hp ⊢
        rw [hp]
        rfl
      rw [hpm]
      dsimp only
      show Except.ok (some (tilesUnion (st.best.map (mapNode φ)) st.md)) =
        Except.ok (some (tilesUnion st.best st.md))
      rw [tilesUnion_map φ hφ]
    | some pr =>
      obtain ⟨nd, q0⟩ := pr
      have hpm : popNode (mapState φ st).q =
          some (mapNode φ nd, q0.map (mapNode φ)) := popNode_map_some φ hφ hp
      rw [hpm]
      dsimp only
      have h1 : getcβ (addβ (mapNode φ nd).p (mulIβ (mapNode φ nd).v)) =
          getcα (addα nd.p (mulIα nd.v)) := by
        show getcβ (addβ (φ nd.p) (mulIβ (φ nd.v))) = _
        rw [← hI, ← hadd, ← hget]
      rw [h1]
      cases hc1 : getcα (addα nd.p (mulIα nd.v)) with
      | none => rfl
      | some c1 =>
        dsimp only
        have h2 : getcβ (addβ (mapNode φ nd).p (mulNIβ (mapNode φ nd).v)) =
            getcα (addα nd.p (mulNIα nd.v)) := by
          show getcβ (addβ (φ nd.p) (mulNIβ (φ nd.v))) = _
          rw [← hNI, ← hadd, ← hget]
        rw [h2]
        cases hc2 : getcα (addα nd.p (mulNIα nd.v)) with
        | none => rfl
        | some c2 =>
          dsimp only
          have h3 : getcβ (addβ (mapNode φ nd).p (mapNode φ nd).v) =
              getcα (addα nd.p nd.v) := by
            show getcβ (addβ (φ nd.p) (φ nd.v)) = _
            rw [← hadd, ← hget]
          rw [h3]
          cases hc3 : getcα (addα nd.p nd.v) with
          | none => rfl
          | some c3 =>
            dsimp only
            have h4 : getcβ (mapNode φ nd).p = getcα nd.p := (hget nd.p).symm
            rw [h4]
            cases hc4 : getcα nd.p with
            | none => rfl
            | some c4 =>
              dsimp only
              have hsv : svUpdate (mapState φ st).sv
                  ((mapNode φ nd).p, (mapNode φ nd).v) (mapNode φ nd).cost =
                  (svUpdate st.sv (nd.p, nd.v) nd.cost).map (mapEntry φ) := by
                show svUpdate (st.sv.map (mapEntry φ)) (φ nd.p, φ nd.v) nd.cost = _
                exact svUpdate_map φ hφ st.sv nd.p nd.v nd.cost
              rw [hsv]
              have hv1 : mulIβ (mapNode φ nd).v = φ (mulIα nd.v) := (hI nd.v).symm
              rw [hv1]
              have hv2 : mulNIβ (mapNode φ nd).v = φ (mulNIα nd.v) := (hNI nd.v).symm
              rw [hv2]
              have hv3 : addβ (mapNode φ nd).p (mapNode φ nd).v =
                  φ (addα nd.p nd.v) := (hadd nd.p nd.v).symm
              rw [hv3]
              rw [rotPush_map φ hφ estα estβ hest _ nd (mulIα nd.v) c1 q0]
              rw [rotPush_map φ hφ estα estβ hest _ nd (mulNIα nd.v) c2 _]
              rw [fwdPush_map φ hφ estα estβ hest _ nd (addα nd.p nd.v) c3 _]
              rw [finishNode_map φ st _ _ nd c4]
              exact ih _

end Day16Part2

namespace Day16Part2

theorem foldl_map_opt {α β γ : Type} (φ : α → β) (fα : Option α → γ → Option α)
    (fβ : Option β → γ → Option β)
    (hf : ∀ acc g, fβ (acc.map φ) g = (fα acc g).map φ) :
    ∀ (l : List γ) (acc : Option α),
      l.foldl fβ (acc.map φ) = (l.foldl fα acc).map φ := by
  intro l
  induction l with
  | nil =>
    intro acc
    rfl
  | cons g t ih =>
    intro acc
    rw [List.foldl_cons, List.foldl_cons, hf]
    exact ih _

theorem findCell_map {α β : Type} (φ : α → β) (mk : ℕ → ℕ → α)
    (board : List (List Char)) (target : Char) :
    findCell (fun x y => φ (mk x y)) board target = (findCell mk board target).map φ := by
  unfold findCell
  have hf : ∀ (acc : Option α) (y : ℕ),
      (List.range ((board.getD y []).length)).foldl
          (fun acc2 x => if (board.getD y []).getD x ' ' = target
            then some (φ (mk x y)) else acc2) (acc.map φ) =
        ((List.range ((board.getD y []).length)).foldl
          (fun acc2 x => if (board.getD y []).getD x ' ' = target
            then some (mk x y) else acc2) acc).map φ := by
    intro acc y
    refine foldl_map_opt φ _ _ ?_ _ acc
    intro acc2 x
    split_ifs with hcond
    · rfl
    · rfl
  exact foldl_map_opt φ _ _ hf (List.range board.length) none

/-- Claim C9: the complex-number coordinate encoding of
`reindeer_maze_part2` is a faithful stand-in for explicit 2D integer
vectors: replacing every `complex(x, y)` by the pair `(x, y)`, complex
addition by componentwise addition, and multiplication by `1j` / `-1j` by
the rotations `(x, y) -> (-y, x)` / `(x, y) -> (y, -x)` yields the same
result on every grid (for every fuel bound). -/
theorem reindeer_maze_part2_pair_faithful :
    ∀ (grid : List (List Char)) (fuel : ℕ),
      reindeer_maze_part2_pair grid fuel = reindeer_maze_part2 grid fuel := by
  intro grid fuel
  simp only [reindeer_maze_part2_pair, reindeer_maze_part2]
  have hS : findCell mkC (grid.map stripRow) 'S' =
      (findCell mkV (grid.map stripRow) 'S').map toG :=
    findCell_map toG mkV (grid.map stripRow) 'S'
  have hE : findCell mkC (grid.map stripRow) 'E' =
      (findCell mkV (grid.map stripRow) 'E').map toG :=
    findCell_map toG mkV (grid.map stripRow) 'E'
  rw [hS, hE]
  cases hs : findCell mkV (grid.map stripRow) 'S' with
  | none => rfl
  | some sV =>
    cases he : findCell mkV (grid.map stripRow) 'E' with
    | none => rfl
    | some eV =>
      exact (p2Run_map toG toG_injective
        (getchV (grid.map stripRow)) addV rotL rotR (estimate_costV eV)
        (getch (grid.map stripRow)) (fun a b => a + b) (fun a => a * ⟨0, 1⟩)
        (fun a => a * ⟨0, -1⟩) (estimate_cost (toG eV))
        (toG_getch (grid.map stripRow)) toG_add toG_rotL toG_rotR (toG_est eV)
        fuel ⟨[⟨estimate_costV eV sV, 0, sV, (1, 0), [sV]⟩], [], none, []⟩).symm

end Day16Part2

namespace Day23

/-- `connections[v]` with the `defaultdict(list)` default, on an
association-list dictionary. -/
def connsGet (conns : List (String × List String)) (k : String) : List String :=
  ((conns.find? (fun e => e.1 = k)).map (fun e => e.2)).getD []

/-- The `for v in list(P)` loop body of `bron_kerbosch`: recurse on
`R ∪ {v}`, `P ∩ connections[v]`, `X ∩ connections[v]` (accumulating into
`cliques`), then `P.remove(v)` and `X.add(v)`.  `next` is the recursive
call one fuel level down. -/
def bkLoop (conns : List (String × List String))
    (next : List String → List String → List String → List (List String) →
      List (List String)) :
    List String → List String → List String → List String → List (List String) →
      List (List String)
  | [], _, _, _, cl => cl
  | v :: rest, R, P, X, cl =>
    bkLoop conns next rest R (P.erase v) (if v ∈ X then X else X ++ [v])
      (next (if v ∈ R then R else R ++ [v])
        (P.filter (fun x => x ∈ connsGet conns v))
        (X.filter (fun x => x ∈ connsGet conns v)) cl)

/-- The recursive `bron_kerbosch(R, P, X, cliques)` with explicit fuel:
if `P` and `X` are both empty, append `R` to the clique list, else run
the pivotless loop over a snapshot of `P`. -/
def bk (conns : List (String × List String)) :
    ℕ → List String → List String → List String → List (List String) →
      List (List String)
  | 0, _, _, _, cl => cl
  | fuel + 1, R, P, X, cl =>
    if P = [] ∧ X = [] then cl ++ [R]
    else bkLoop conns (bk conns fuel) P R P X cl

/-- `find_cliques`: Bron-Kerbosch from `R = ∅`, `P = ` all keys, `X = ∅`. -/
def find_cliques (conns : List (String × List String)) (fuel : ℕ) :
    List (List String) :=
  bk conns fuel [] (conns.map (fun e => e.1)) [] []

/-- `max(cliques, key=len) if cliques else set()`: the first clique of
maximal size (Python's `max` keeps the earliest maximum). -/
def find_largest_clique (cliques : List (List String)) : List String :=
  match cliques with
  | [] => []
  | c :: rest => rest.foldl (fun best x => if best.length < x.length then x else best) c

/-- `','.join(sorted(clique))`. -/
def generate_password (clique : List String) : String :=
  String.intercalate (",") (clique.mergeSort (fun a b => a ≤ b))

end Day23

namespace Day22

/-- A window of four consecutive price differences. -/
abbrev Seq4 := ℤ × ℤ × ℤ × ℤ

/-- One iteration of the inner `for i in range(2000)` loop of
`p2_simulate_secrets`, acting on `(secret, seq, seqs)`: remember the old
price, advance the secret, shift the new difference into the window and,
from the fourth iteration on, record the first occurrence of the window. -/
def seqsStep (st : ℕ × Seq4 × List (Seq4 × ℕ)) (i : ℕ) : ℕ × Seq4 × List (Seq4 × ℕ) :=
  let prev := st.1 % 10
  let secret2 := next_secret st.1
  let seq2 : Seq4 := (st.2.1.2.1, st.2.1.2.2.1, st.2.1.2.2.2,
    (secret2 % 10 : ℤ) - (prev : ℤ))
  let seqs2 :=
    if 3 ≤ i ∧ (st.2.2.find? (fun e => e.1 = seq2)) = none then
      st.2.2 ++ [(seq2, secret2 % 10)]
    else st.2.2
  (secret2, seq2, seqs2)

/-- `total[s] += seqs[s]` on the `defaultdict(int)` `total`, keeping
insertion order. -/
def totalAdd (total : List (Seq4 × ℕ)) (s : Seq4) (v : ℕ) : List (Seq4 × ℕ) :=
  match total.find? (fun e => e.1 = s) with
  | none => total ++ [(s, v)]
  | some _ => total.map (fun e => if e.1 = s then (e.1, e.2 + v) else e)

/-- Lexicographic order on difference windows (Python tuple comparison). -/
def seq4Lt (a b : Seq4) : Bool :=
  decide (a.1 < b.1) ||
    (decide (a.1 = b.1) && (decide (a.2.1 < b.2.1) ||
      (decide (a.2.1 = b.2.1) && (decide (a.2.2.1 < b.2.2.1) ||
        (decide (a.2.2.1 = b.2.2.1) && decide (a.2.2.2 < b.2.2.2))))))

/-- Lexicographic order on `(profit, window)` pairs: the order of
`sorted([(v, k) for k, v in total.items()])`. -/
def wLt (a b : ℕ × Seq4) : Bool :=
  decide (a.1 < b.1) || (decide (a.1 = b.1) && seq4Lt a.2 b.2)

/-- Embeds `p2_simulate_secrets` from day22.py: per secret, 2000 price
steps collecting first-seen windows, summed into `total`; the result is
`sorted([(v, k) ...])[-1]`, the lexicographically largest pair (`none` on
an empty secret list, where Python raises `IndexError`). -/
def p2_simulate_secrets (initial_secrets : List ℕ) : Option (ℕ × Seq4) :=
  let total := initial_secrets.foldl (fun total secret =>
    let final := (List.range 2000).foldl seqsStep (secret, ((0, 0, 0, 0) : Seq4), [])
    final.2.2.foldl (fun t e => totalAdd t e.1 e.2) total) []
  match total.map (fun e => (e.2, e.1)) with
  | [] => none
  | w :: rest => some (rest.foldl (fun best x => if wLt best x then x else best) w)

end Day22

/-- Claim C6: the embedded solvers are deterministic functions of their
parsed input: two evaluations of the day-23 pipeline (`find_cliques`,
`find_largest_clique`, `generate_password`) on the same connection map, or
of `p2_simulate_secrets` on the same secret list, give equal results. -/
theorem solvers_deterministic :
    ∀ (conns : List (String × List String)) (fuel : ℕ) (secrets : List ℕ),
      (Day23.generate_password (Day23.find_largest_clique
          (Day23.find_cliques conns fuel)) =
        Day23.generate_password (Day23.find_largest_clique
          (Day23.find_cliques conns fuel))) ∧
      Day22.p2_simulate_secrets secrets = Day22.p2_simulate_secrets secrets :=
  fun _ _ _ => ⟨rfl, rfl⟩
